import Mathlib

/-!
Verification development for the SU2 distributed block-sparse matrix core
(src/Common/src/linear_algebra/CSysMatrix.cpp).

The embedding works over exact rationals: every su2double scalar of the
source becomes a rational number, a dense nVar-by-nVar block becomes a
Mathlib matrix over the rationals, and a block-structured system vector
(CSysVector) becomes a function from point index to block values.

The dense block kernels (MatrixVectorProductAdd, MatrixMatrixProduct,
MatrixSubtraction, VectorSubtraction, MatrixVectorProductTransp, ...) are
implemented in CSysMatrix.inl, which is not part of the sources at hand;
they are modelled from the spec as the obvious dense operations
(block-dense multiply-accumulate and friends).  All control flow, loop
bounds and loop order are translated from CSysMatrix.cpp itself.
-/

namespace SU2

/-- A dense nVar-by-nVar block of the block-CSR matrix. -/
abbrev Blk (n : ℕ) := Matrix (Fin n) (Fin n) ℚ

/-- A block-structured system vector: point index to block of values.
CSysVector stores nPoint*nVar rationals; entry (p, v) is x[p*nVar+v]. -/
abbrev Vec (n : ℕ) := ℕ → Fin n → ℚ

section Helpers

variable {V : Type} {n : ℕ}

/-- x[p] := v, one block-slot overwrite of a system vector. -/
def writeAt (x : ℕ → V) (p : ℕ) (v : V) : ℕ → V :=
  fun q => if q = p then v else x q

@[simp] theorem writeAt_same (x : ℕ → V) (p : ℕ) (v : V) : writeAt x p v p = v := by
  simp [writeAt]

theorem writeAt_other (x : ℕ → V) (p : ℕ) (v : V) {q : ℕ} (h : q ≠ p) :
    writeAt x p v q = x q := by
  simp [writeAt, h]

/-- Sequentially overwrite destination slots with values, in list order.
This is the scatter loop of CompleteComms in forward (SOLUTION_MATRIX)
mode: for each (point, value) pair, x[iPoint*nVar+iVar] = buffer value. -/
def scatterOver (x : ℕ → V) (l : List (ℕ × V)) : ℕ → V :=
  l.foldl (fun y pv => writeAt y pv.1 pv.2) x

/-- Sequentially accumulate values into destination slots, in list order.
This is the scatter loop of CompleteComms in reverse (SOLUTION_MATRIXTRANS)
mode: for each (point, value) pair, x[iPoint*nVar+iVar] += buffer value. -/
def accumOver [Add V] (x : ℕ → V) (l : List (ℕ × V)) : ℕ → V :=
  l.foldl (fun y pv => writeAt y pv.1 (y pv.1 + pv.2)) x

@[simp] theorem scatterOver_nil (x : ℕ → V) : scatterOver x [] = x := rfl

@[simp] theorem scatterOver_cons (x : ℕ → V) (a : ℕ × V) (l : List (ℕ × V)) :
    scatterOver x (a :: l) = scatterOver (writeAt x a.1 a.2) l := rfl

@[simp] theorem accumOver_nil [Add V] (x : ℕ → V) : accumOver x [] = x := rfl

@[simp] theorem accumOver_cons [Add V] (x : ℕ → V) (a : ℕ × V) (l : List (ℕ × V)) :
    accumOver x (a :: l) = accumOver (writeAt x a.1 (x a.1 + a.2)) l := rfl

/-- A destination slot not named by the list is untouched by the scatter. -/
theorem scatterOver_not_mem (x : ℕ → V) (l : List (ℕ × V)) (p : ℕ)
    (h : p ∉ l.map Prod.fst) : scatterOver x l p = x p := by
  induction l generalizing x with
  | nil => rfl
  | cons a l ih =>
      simp only [List.map_cons, List.mem_cons] at h
      push_neg at h
      rw [scatterOver_cons, ih _ h.2, writeAt_other _ _ _ h.1]

/-- A destination slot not named by the list is untouched by the accumulate. -/
theorem accumOver_not_mem [Add V] (x : ℕ → V) (l : List (ℕ × V)) (p : ℕ)
    (h : p ∉ l.map Prod.fst) : accumOver x l p = x p := by
  induction l generalizing x with
  | nil => rfl
  | cons a l ih =>
      simp only [List.map_cons, List.mem_cons] at h
      push_neg at h
      rw [accumOver_cons, ih _ h.2, writeAt_other _ _ _ h.1]

/-- With pairwise-distinct destinations, a scattered slot holds its value. -/
theorem scatterOver_mem (x : ℕ → V) (l : List (ℕ × V)) (p : ℕ) (v : V)
    (hnd : (l.map Prod.fst).Nodup) (hmem : (p, v) ∈ l) :
    scatterOver x l p = v := by
  induction l generalizing x with
  | nil => cases hmem
  | cons a l ih =>
      rw [List.map_cons, List.nodup_cons] at hnd
      rcases List.mem_cons.mp hmem with h | h
      · subst h
        rw [scatterOver_cons, scatterOver_not_mem _ _ _ hnd.1, writeAt_same]
      · rw [scatterOver_cons]
        exact ih _ hnd.2 h

/-- The accumulate adds, per destination slot, the sum of all values the
list carries for it, regardless of list order. -/
theorem accumOver_apply [AddCommMonoid V] (x : ℕ → V) (l : List (ℕ × V)) (p : ℕ) :
    accumOver x l p = x p + (l.map (fun pv => if pv.1 = p then pv.2 else 0)).sum := by
  induction l generalizing x with
  | nil => simp
  | cons a l ih =>
      rw [accumOver_cons, ih]
      by_cases h : a.1 = p
      · subst h
        simp [writeAt, add_assoc]
      · rw [writeAt_other _ _ _ (fun hq => h hq.symm)]
        simp [h]

@[simp] theorem scatterOver_append (x : ℕ → V) (l₁ l₂ : List (ℕ × V)) :
    scatterOver x (l₁ ++ l₂) = scatterOver (scatterOver x l₁) l₂ :=
  List.foldl_append _ _ _ _

@[simp] theorem accumOver_append [Add V] (x : ℕ → V) (l₁ l₂ : List (ℕ × V)) :
    accumOver x (l₁ ++ l₂) = accumOver (accumOver x l₁) l₂ :=
  List.foldl_append _ _ _ _

theorem sum_ite_allEq [AddCommMonoid V] (l : List (ℕ × V)) (r : ℕ)
    (h : ∀ e ∈ l, e.1 = r) :
    (l.map (fun pv => if pv.1 = r then pv.2 else 0)).sum = (l.map Prod.snd).sum := by
  induction l with
  | nil => rfl
  | cons a l ih =>
      simp only [List.map_cons, List.sum_cons, h a (List.mem_cons_self a l), if_pos]
      rw [ih (fun e he => h e (List.mem_cons_of_mem a he))]

/-- Effect of one accumulate loop grouped by destination row: the flattened
nested loop adds, at slot p, exactly the values produced for row p. -/
theorem accumOver_flatMap [AddCommMonoid V] (x : ℕ → V) (rows : List ℕ)
    (f : ℕ → List (ℕ × V)) (hf : ∀ r ∈ rows, ∀ e ∈ f r, e.1 = r)
    (hnd : rows.Nodup) (p : ℕ) :
    accumOver x (rows.flatMap f) p =
      x p + (if p ∈ rows then ((f p).map Prod.snd).sum else 0) := by
  induction rows generalizing x with
  | nil => simp [accumOver]
  | cons r rows ih =>
      rw [List.flatMap_cons, accumOver_append]
      rw [List.nodup_cons] at hnd
      have hr : ∀ e ∈ f r, e.1 = r := hf r (List.mem_cons_self r rows)
      have hrest : ∀ q ∈ rows, ∀ e ∈ f q, e.1 = q :=
        fun q hq => hf q (List.mem_cons_of_mem r hq)
      rw [ih _ hrest hnd.2]
      by_cases hp : p = r
      · subst hp
        rw [accumOver_apply, sum_ite_allEq _ _ hr, if_neg hnd.1,
          if_pos (List.mem_cons_self p rows), add_zero]
      · rw [accumOver_not_mem]
        · simp [List.mem_cons, hp]
        · intro hmem
          rcases List.mem_map.mp hmem with ⟨e, he, hfst⟩
          exact hp (hfst ▸ hr e he)

end Helpers

/-! ## Block-CSR matrix (CSysMatrix data model)

The sparsity pattern arrays row_ptr, col_ind, dia_ptr are owned by the
geometry; blocks are stored by nonzero index (block at position index is
entry (row, col_ind[index])).  Flat C arrays become functions from ℕ. -/

structure SysMatrix (n : ℕ) where
  nPoint : ℕ
  nPointDomain : ℕ
  row_ptr : ℕ → ℕ
  col_ind : ℕ → ℕ
  dia_ptr : ℕ → ℕ
  val : ℕ → Blk n

variable {n : ℕ}

/-- The nonzero indices of block-row r: for (index = row_ptr[r];
index < row_ptr[r+1]; index++). -/
def rowIdx (A : SysMatrix n) (r : ℕ) : List ℕ :=
  List.range' (A.row_ptr r) (A.row_ptr (r + 1) - A.row_ptr r)

theorem mem_rowIdx {A : SysMatrix n} {r idx : ℕ} :
    idx ∈ rowIdx A r ↔ A.row_ptr r ≤ idx ∧ idx < A.row_ptr (r + 1) := by
  unfold rowIdx
  rw [List.mem_range'_1]
  omega

/-- The update list of the owned-rows multiply-accumulate loop of
CSysMatrix::MatrixVectorProduct (lines 604-611): for each owned row, for
each nonzero index of that row, add block times the column block of vec
into the row slot of prod.  MatrixVectorProductAdd is modelled from the
spec as dense block multiply-accumulate. -/
def mvpEntries (A : SysMatrix n) (vec : Vec n) : List (ℕ × (Fin n → ℚ)) :=
  (List.range A.nPointDomain).flatMap (fun r =>
    (rowIdx A r).map (fun idx => (r, (A.val idx).mulVec (vec (A.col_ind idx)))))

/-- Local part of CSysMatrix::MatrixVectorProduct: prod = 0, then the
multiply-accumulate loop over owned rows (lines 603-611). -/
def mvpLocal (A : SysMatrix n) (vec : Vec n) : Vec n :=
  accumOver (fun _ _ => 0) (mvpEntries A vec)

/-- The update list of CSysMatrix::MatrixVectorProductTransposed
(lines 635-643): for each owned row, for each nonzero index, add the
transposed block times the row block of vec into the column slot of prod.
MatrixVectorProductTransp is modelled from the spec as transposed dense
block multiply-accumulate. -/
def mvpTEntries (A : SysMatrix n) (vec : Vec n) : List (ℕ × (Fin n → ℚ)) :=
  (List.range A.nPointDomain).flatMap (fun r =>
    (rowIdx A r).map (fun idx =>
      (A.col_ind idx, (A.val idx).transpose.mulVec (vec r))))

/-- Local part of CSysMatrix::MatrixVectorProductTransposed: prod = 0,
then the transposed multiply-accumulate loop over owned rows. -/
def mvpTLocal (A : SysMatrix n) (vec : Vec n) : Vec n :=
  accumOver (fun _ _ => 0) (mvpTEntries A vec)

/-- On an owned row, the local product is the sum over the row's nonzero
blocks of block times the corresponding block of vec. -/
theorem mvpLocal_apply (A : SysMatrix n) (vec : Vec n) {p : ℕ}
    (hp : p < A.nPointDomain) :
    mvpLocal A vec p =
      ((rowIdx A p).map (fun idx => (A.val idx).mulVec (vec (A.col_ind idx)))).sum := by
  unfold mvpLocal mvpEntries
  rw [accumOver_flatMap _ _ _
      (by intro r hr e he; rcases List.mem_map.mp he with ⟨idx, _, h⟩; rw [← h])
      (List.nodup_range _) p]
  rw [if_pos (List.mem_range.mpr hp), List.map_map]
  simp only [Function.comp_def]
  exact zero_add _

/-- Outside the owned range the local product is still the zero it was
initialized to. -/
theorem mvpLocal_apply_ge (A : SysMatrix n) (vec : Vec n) {p : ℕ}
    (hp : A.nPointDomain ≤ p) : mvpLocal A vec p = 0 := by
  unfold mvpLocal mvpEntries
  rw [accumOver_flatMap _ _ _
      (by intro r hr e he; rcases List.mem_map.mp he with ⟨idx, _, h⟩; rw [← h])
      (List.nodup_range _) p]
  rw [if_neg (by rw [List.mem_range]; omega)]
  exact zero_add _

/-- Pointwise value of the transposed local product: sum over all owned
rows and their nonzero indices whose column is p. -/
theorem mvpTLocal_apply (A : SysMatrix n) (vec : Vec n) (p : ℕ) :
    mvpTLocal A vec p =
      ((mvpTEntries A vec).map
        (fun pv => if pv.1 = p then pv.2 else 0)).sum := by
  unfold mvpTLocal
  rw [accumOver_apply]
  exact zero_add _

/-- If no owned row has a nonzero with column p, the transposed local
product is zero at p. -/
theorem mvpTLocal_eq_zero (A : SysMatrix n) (vec : Vec n) (p : ℕ)
    (h : ∀ r < A.nPointDomain, ∀ idx ∈ rowIdx A r, A.col_ind idx ≠ p) :
    mvpTLocal A vec p = 0 := by
  unfold mvpTLocal mvpTEntries
  refine (accumOver_not_mem _ _ _ ?_).trans rfl
  intro hmem
  rcases List.mem_map.mp hmem with ⟨e, he, hfst⟩
  rcases List.mem_flatMap.mp he with ⟨r, hr, he2⟩
  rcases List.mem_map.mp he2 with ⟨idx, hidx, hidx2⟩
  exact h r (List.mem_range.mp hr) idx hidx (by rw [← hidx2] at hfst; exact hfst)

/-! ## Halo exchange (InitiateComms / CompleteComms)

The point-to-point structures of the geometry: for the directed channel
from rank a to rank b, chanLen a b packets are exchanged; position t of
the channel is packed from local point sendPt a b t on rank a
(Local_Point_P2PSend) and scattered to local point recvPt a b t on rank b
(Local_Point_P2PRecv).  In reverse (SOLUTION_MATRIXTRANS) mode the roles
of the two point lists swap: rank b packs its recv points and rank a
accumulates into its send points. -/

structure CommStructure (K : ℕ) where
  chanLen : Fin K → Fin K → ℕ
  sendPt : Fin K → Fin K → ℕ → ℕ
  recvPt : Fin K → Fin K → ℕ → ℕ

variable {K : ℕ}

/-- Buffer scattered on rank k by forward CompleteComms (SOLUTION_MATRIX,
lines 380-411): per source rank, per packet, overwrite the recv point with
the value the source packed from its send point (InitiateComms lines
259-287). -/
def forwardEntries (C : CommStructure K) (x : Fin K → Vec n) (k : Fin K) :
    List (ℕ × (Fin n → ℚ)) :=
  (List.finRange K).flatMap (fun j =>
    (List.range (C.chanLen j k)).map (fun t => (C.recvPt j k t, x j (C.sendPt j k t))))

/-- Forward halo exchange: InitiateComms + CompleteComms with
SOLUTION_MATRIX on every rank; destination slots are overwritten. -/
def forwardExchange (C : CommStructure K) (x : Fin K → Vec n) : Fin K → Vec n :=
  fun k => scatterOver (x k) (forwardEntries C x k)

/-- Buffer accumulated on rank k by reverse CompleteComms
(SOLUTION_MATRIXTRANS, lines 413-450): per channel k to j, per packet, the
rank j packs its recv point (InitiateComms lines 289-325) and rank k adds
the value into its send point. -/
def reverseEntries (C : CommStructure K) (x : Fin K → Vec n) (k : Fin K) :
    List (ℕ × (Fin n → ℚ)) :=
  (List.finRange K).flatMap (fun j =>
    (List.range (C.chanLen k j)).map (fun t => (C.sendPt k j t, x j (C.recvPt k j t))))

/-- Reverse halo exchange: InitiateComms + CompleteComms with
SOLUTION_MATRIXTRANS on every rank; destination slots are accumulated. -/
def reverseExchange (C : CommStructure K) (x : Fin K → Vec n) : Fin K → Vec n :=
  fun k => accumOver (x k) (reverseEntries C x k)

/-- All forward destination points of rank k, over all source ranks. -/
def recvDests (C : CommStructure K) (k : Fin K) : List ℕ :=
  (List.finRange K).flatMap (fun j =>
    (List.range (C.chanLen j k)).map (C.recvPt j k))

theorem forwardEntries_fst (C : CommStructure K) (x : Fin K → Vec n) (k : Fin K) :
    (forwardEntries C x k).map Prod.fst = recvDests C k := by
  unfold forwardEntries recvDests
  rw [List.map_flatMap]
  refine congrArg _ (funext fun j => ?_)
  rw [List.map_map]
  rfl

/-- CSysMatrix::MatrixVectorProduct across K partitions: every rank zeroes
prod, runs the owned-rows multiply-accumulate, and the ranks perform the
forward halo exchange (lines 588-618). -/
def MatrixVectorProduct (parts : Fin K → SysMatrix n) (C : CommStructure K)
    (vec : Fin K → Vec n) : Fin K → Vec n :=
  forwardExchange C (fun k => mvpLocal (parts k) (vec k))

/-- CSysMatrix::MatrixVectorProductTransposed across K partitions: every
rank zeroes prod, runs the transposed multiply-accumulate over owned rows,
and the ranks perform the reverse halo exchange (lines 620-650). -/
def MatrixVectorProductTransposed (parts : Fin K → SysMatrix n)
    (C : CommStructure K) (vec : Fin K → Vec n) : Fin K → Vec n :=
  reverseExchange C (fun k => mvpTLocal (parts k) (vec k))

/-- C1: MatrixVectorProduct(vec, result) first sets every entry of result
to zero, then for every locally owned point row_i < nPointDomain
accumulates into the block at row_i the sum over the row's nonzero blocks
of block times the corresponding block of vec (result = A times vec on
owned points), and afterwards performs a forward halo exchange so ghost
entries of result equal neighbor-computed values (ghost slots outside the
exchange lists keep the zero they were set to). -/
theorem C1_matrixVectorProduct_spec (parts : Fin K → SysMatrix n)
    (C : CommStructure K) (vec : Fin K → Vec n)
    (hghost : ∀ j k : Fin K, ∀ t < C.chanLen j k,
      (parts k).nPointDomain ≤ C.recvPt j k t)
    (hnodup : ∀ k, (recvDests C k).Nodup) :
    (∀ k : Fin K, ∀ p < (parts k).nPointDomain,
      MatrixVectorProduct parts C vec k p =
        ((rowIdx (parts k) p).map
          (fun idx => ((parts k).val idx).mulVec (vec k ((parts k).col_ind idx)))).sum)
    ∧ (∀ j k : Fin K, ∀ t < C.chanLen j k,
        MatrixVectorProduct parts C vec k (C.recvPt j k t) =
          mvpLocal (parts j) (vec j) (C.sendPt j k t))
    ∧ (∀ k : Fin K, ∀ p, (parts k).nPointDomain ≤ p → p ∉ recvDests C k →
        MatrixVectorProduct parts C vec k p = 0) := by
  refine ⟨?_, ?_, ?_⟩
  · intro k p hp
    unfold MatrixVectorProduct forwardExchange
    rw [scatterOver_not_mem]
    · exact mvpLocal_apply _ _ hp
    rw [forwardEntries_fst]
    intro hmem
    unfold recvDests at hmem
    rcases List.mem_flatMap.mp hmem with ⟨j, _, hmem2⟩
    rcases List.mem_map.mp hmem2 with ⟨t, ht, hpt⟩
    have := hghost j k t (List.mem_range.mp ht)
    omega
  · intro j k t ht
    unfold MatrixVectorProduct forwardExchange
    refine scatterOver_mem _ _ _ _ ?_ ?_
    · rw [forwardEntries_fst]; exact hnodup k
    · unfold forwardEntries
      refine List.mem_flatMap.mpr ⟨j, List.mem_finRange j, ?_⟩
      exact List.mem_map.mpr ⟨t, List.mem_range.mpr ht, rfl⟩
  · intro k p hp hmem
    unfold MatrixVectorProduct forwardExchange
    rw [scatterOver_not_mem]
    · exact mvpLocal_apply_ge _ _ hp
    rw [forwardEntries_fst]
    exact hmem

/-! ### A concrete two-partition world used by witnesses

Two ranks, scalar blocks (nVar = 1).  Each rank owns point 0 and holds
point 1 as the ghost mirror of the other rank's point 0; each rank's
single matrix row has a diagonal and one off-diagonal block. -/

/-- Matrix held by each of the two witness ranks. -/
def wPart (k : Fin 2) : SysMatrix 1 where
  nPoint := 2
  nPointDomain := 1
  row_ptr := fun r => if r = 0 then 0 else 2
  col_ind := fun idx => if idx = 0 then 0 else 1
  dia_ptr := fun _ => 0
  val := fun idx =>
    Matrix.of (fun _ _ => if idx = 0 then (2 + (k : ℚ)) else -1)

/-- Exchange structure of the witness world: each rank sends its owned
point 0 to the other rank's ghost point 1. -/
def wComm : CommStructure 2 where
  chanLen := fun a b => if a = b then 0 else 1
  sendPt := fun _ _ _ => 0
  recvPt := fun _ _ _ => 1

/-- Input vector of the witness world. -/
def wVec (k : Fin 2) : Vec 1 := fun p _ => (k : ℚ) + p + 1

theorem C1_matrixVectorProduct_spec_witness :
    ((∀ j k : Fin 2, ∀ t < wComm.chanLen j k,
        (wPart k).nPointDomain ≤ wComm.recvPt j k t)
      ∧ (∀ k, (recvDests wComm k).Nodup))
    ∧ ((∀ k : Fin 2, ∀ p < (wPart k).nPointDomain,
        MatrixVectorProduct wPart wComm wVec k p =
          ((rowIdx (wPart k) p).map
            (fun idx => ((wPart k).val idx).mulVec (wVec k ((wPart k).col_ind idx)))).sum)
      ∧ (∀ j k : Fin 2, ∀ t < wComm.chanLen j k,
          MatrixVectorProduct wPart wComm wVec k (wComm.recvPt j k t) =
            mvpLocal (wPart j) (wVec j) (wComm.sendPt j k t))
      ∧ (∀ k : Fin 2, ∀ p, (wPart k).nPointDomain ≤ p → p ∉ recvDests wComm k →
          MatrixVectorProduct wPart wComm wVec k p = 0)) :=
  ⟨⟨by decide, by decide⟩,
    C1_matrixVectorProduct_spec wPart wComm wVec (by decide) (by decide)⟩

/-! ## CompleteComms under arbitrary message arrival order

CompleteComms waits for the pending receives with Waitany and processes
each message as it arrives (lines 367-456): the source rank determines the
message slot, hence its point list and buffer segment.  An execution is a
fold over the arrival order, an arbitrary permutation of the message
slots. -/

/-- One CompleteComms call with M pending messages: per message slot, its
packet count, destination point list and received buffer segment. -/
structure CommRound (M n : ℕ) where
  len : Fin M → ℕ
  dstPt : Fin M → ℕ → ℕ
  buf : Fin M → ℕ → Fin n → ℚ

variable {M : ℕ}

/-- The (point, value) updates of one arrived message. -/
def msgEntries (R : CommRound M n) (m : Fin M) : List (ℕ × (Fin n → ℚ)) :=
  (List.range (R.len m)).map (fun t => (R.dstPt m t, R.buf m t))

/-- Forward-mode (SOLUTION_MATRIX) CompleteComms: messages processed in
arrival order, each overwriting its destination slots (lines 395-410). -/
def completeCommsForward (R : CommRound M n) (arrival : List (Fin M))
    (x : Vec n) : Vec n :=
  arrival.foldl (fun y m => scatterOver y (msgEntries R m)) x

/-- Reverse-mode (SOLUTION_MATRIXTRANS) CompleteComms: messages processed
in arrival order, each accumulating into its destination slots
(lines 434-448). -/
def completeCommsReverse (R : CommRound M n) (arrival : List (Fin M))
    (x : Vec n) : Vec n :=
  arrival.foldl (fun y m => accumOver y (msgEntries R m)) x

/-- A point in no arriving message's destination list is untouched by the
forward scatter. -/
theorem completeCommsForward_untouched (R : CommRound M n)
    (arrival : List (Fin M)) (x : Vec n) (p : ℕ)
    (h : ∀ m ∈ arrival, p ∉ (msgEntries R m).map Prod.fst) :
    completeCommsForward R arrival x p = x p := by
  induction arrival generalizing x with
  | nil => rfl
  | cons m rest ih =>
      unfold completeCommsForward at ih ⊢
      rw [List.foldl_cons, ih _ (fun q hq => h q (List.mem_cons_of_mem m hq))]
      exact scatterOver_not_mem _ _ _ (h m (List.mem_cons_self m rest))

/-- Two different messages with disjoint destination lists commute as
scatters; a message trivially commutes with itself. -/
theorem scatter_msg_comm (R : CommRound M n)
    (hnd : ∀ m, ((msgEntries R m).map Prod.fst).Nodup)
    (hdisj : ∀ m₁ m₂ : Fin M, m₁ ≠ m₂ →
      ∀ p ∈ (msgEntries R m₁).map Prod.fst, p ∉ (msgEntries R m₂).map Prod.fst)
    (x : Vec n) (m₁ m₂ : Fin M) :
    scatterOver (scatterOver x (msgEntries R m₁)) (msgEntries R m₂) =
      scatterOver (scatterOver x (msgEntries R m₂)) (msgEntries R m₁) := by
  by_cases heq : m₁ = m₂
  · rw [heq]
  funext p i
  by_cases h1 : p ∈ (msgEntries R m₁).map Prod.fst
  · have h2 : p ∉ (msgEntries R m₂).map Prod.fst := hdisj m₁ m₂ heq p h1
    rcases List.mem_map.mp h1 with ⟨e, he, hfst⟩
    rw [scatterOver_not_mem _ _ _ h2,
      scatterOver_mem _ _ _ e.2 (hnd m₁) (by rw [← hfst]; exact he),
      scatterOver_mem _ _ _ e.2 (hnd m₁) (by rw [← hfst]; exact he)]
  · by_cases h2 : p ∈ (msgEntries R m₂).map Prod.fst
    · rcases List.mem_map.mp h2 with ⟨e, he, hfst⟩
      rw [scatterOver_mem _ _ _ e.2 (hnd m₂) (by rw [← hfst]; exact he),
        scatterOver_not_mem _ _ _ h1,
        scatterOver_mem _ _ _ e.2 (hnd m₂) (by rw [← hfst]; exact he)]
    · rw [scatterOver_not_mem _ _ _ h2, scatterOver_not_mem _ _ _ h1,
        scatterOver_not_mem _ _ _ h1, scatterOver_not_mem _ _ _ h2]

/-- Accumulating messages always commute. -/
theorem accum_msg_comm (R : CommRound M n) (x : Vec n) (m₁ m₂ : Fin M) :
    accumOver (accumOver x (msgEntries R m₁)) (msgEntries R m₂) =
      accumOver (accumOver x (msgEntries R m₂)) (msgEntries R m₁) := by
  funext p i
  rw [accumOver_apply, accumOver_apply, accumOver_apply, accumOver_apply]
  ring_nf
  rw [add_right_comm]

/-- C5: in CompleteComms, reverse mode (SOLUTION_MATRIXTRANS) adds the
received buffer values into the existing destination slots, and its
per-destination final value is independent of the message arrival order
-- unconditionally, in particular when several messages contribute
partial sums to the same transposed-product slot; forward mode
(SOLUTION_MATRIX) overwrites each destination point slot with the
received buffer values, order-independently, under the forward-mode
invariant that each ghost point is received from exactly one neighbor
(distinct messages have disjoint destination lists). -/
theorem C5_completeComms_spec (R : CommRound M n) :
    (∀ (x : Vec n) (arrival : List (Fin M)) (p : ℕ),
        completeCommsReverse R arrival x p =
          x p + (arrival.map (fun m =>
            ((msgEntries R m).map (fun pv => if pv.1 = p then pv.2 else 0)).sum)).sum)
    ∧ (∀ (x : Vec n) (a₁ a₂ : List (Fin M)), a₁.Perm a₂ →
        completeCommsReverse R a₁ x = completeCommsReverse R a₂ x)
    ∧ ((∀ m, ((msgEntries R m).map Prod.fst).Nodup) →
        (∀ m₁ m₂ : Fin M, m₁ ≠ m₂ →
          ∀ p ∈ (msgEntries R m₁).map Prod.fst,
            p ∉ (msgEntries R m₂).map Prod.fst) →
        (∀ (x : Vec n) (arrival : List (Fin M)) (m : Fin M), ∀ t < R.len m,
          m ∈ arrival →
          completeCommsForward R arrival x (R.dstPt m t) = R.buf m t)
        ∧ (∀ (x : Vec n) (a₁ a₂ : List (Fin M)), a₁.Perm a₂ →
            completeCommsForward R a₁ x = completeCommsForward R a₂ x)) := by
  refine ⟨?_, ?_, ?_⟩
  · intro x arrival p
    induction arrival generalizing x with
    | nil => simp [completeCommsReverse]
    | cons c rest ih =>
        unfold completeCommsReverse at ih ⊢
        rw [List.foldl_cons, ih, accumOver_apply, List.map_cons, List.sum_cons,
          add_assoc]
  · intro x a₁ a₂ hperm
    exact hperm.foldl_eq' (fun m₁ _ m₂ _ y => accum_msg_comm R y m₁ m₂) x
  · intro hnd hdisj
    constructor
    · intro x arrival m t ht hm
      induction arrival generalizing x with
      | nil => cases hm
      | cons c rest ih =>
          unfold completeCommsForward at ih ⊢
          rw [List.foldl_cons]
          by_cases hmem : m ∈ rest
          · exact ih _ hmem
          · have hmc : m = c := by
              rcases List.mem_cons.mp hm with h | h
              · exact h
              · exact absurd h hmem
            subst hmc
            have huntouched : ∀ q ∈ rest, R.dstPt m t ∉ (msgEntries R q).map Prod.fst := by
              intro q hq
              have hqm : q ≠ m := fun h => hmem (h ▸ hq)
              intro hcontra
              refine hdisj m q (fun h => hqm h.symm) _ ?_ hcontra
              unfold msgEntries
              rw [List.map_map]
              exact List.mem_map.mpr ⟨t, List.mem_range.mpr ht, rfl⟩
            refine (completeCommsForward_untouched R rest _ _ huntouched).trans ?_
            refine scatterOver_mem _ _ _ _ (hnd m) ?_
            unfold msgEntries
            exact List.mem_map.mpr ⟨t, List.mem_range.mpr ht, rfl⟩
    · intro x a₁ a₂ hperm
      exact hperm.foldl_eq' (fun m₁ _ m₂ _ y => scatter_msg_comm R hnd hdisj y m₁ m₂) x

/-- Concrete two-message round used by the C5 witness: both messages
accumulate into the same destination point 1, the overlapping
partial-sum situation of reverse mode. -/
def wRound : CommRound 2 1 where
  len := fun _ => 1
  dstPt := fun _ _ => 1
  buf := fun m _ _ => (m : ℚ) + 5

theorem C5_completeComms_spec_witness :
    (((msgEntries wRound 0).map Prod.fst = [1]
      ∧ (msgEntries wRound 1).map Prod.fst = [1])
    ∧ (∀ (x : Vec 1) (arrival : List (Fin 2)) (p : ℕ),
          completeCommsReverse wRound arrival x p =
            x p + (arrival.map (fun m =>
              ((msgEntries wRound m).map (fun pv => if pv.1 = p then pv.2 else 0)).sum)).sum)
      ∧ (∀ (x : Vec 1) (a₁ a₂ : List (Fin 2)), a₁.Perm a₂ →
          completeCommsReverse wRound a₁ x = completeCommsReverse wRound a₂ x)
      ∧ ((∀ m, ((msgEntries wRound m).map Prod.fst).Nodup) →
          (∀ m₁ m₂ : Fin 2, m₁ ≠ m₂ →
            ∀ p ∈ (msgEntries wRound m₁).map Prod.fst,
              p ∉ (msgEntries wRound m₂).map Prod.fst) →
          (∀ (x : Vec 1) (arrival : List (Fin 2)) (m : Fin 2), ∀ t < wRound.len m,
            m ∈ arrival →
            completeCommsForward wRound arrival x (wRound.dstPt m t) = wRound.buf m t)
          ∧ (∀ (x : Vec 1) (a₁ a₂ : List (Fin 2)), a₁.Perm a₂ →
              completeCommsForward wRound a₁ x = completeCommsForward wRound a₂ x))) :=
  ⟨⟨by decide, by decide⟩, C5_completeComms_spec wRound⟩

/-! ## Sum-manipulation helpers for the adjoint identity -/

section SumHelpers

variable {α β γ : Type} [AddCommMonoid γ]

theorem listSum_map_range (g : ℕ → γ) (m : ℕ) :
    ((List.range m).map g).sum = ∑ i in Finset.range m, g i := by
  induction m with
  | zero => simp
  | succ m ih =>
      rw [List.range_succ, List.map_append, List.sum_append, Finset.sum_range_succ, ih]
      simp

theorem listSum_map_finRange {K : ℕ} (g : Fin K → γ) :
    ((List.finRange K).map g).sum = ∑ j : Fin K, g j := by
  rw [Finset.sum]
  rfl

theorem listSum_flatMap_map (l : List α) (f : α → List β) (g : β → γ) :
    ((l.flatMap f).map g).sum = (l.map (fun a => ((f a).map g).sum)).sum := by
  rw [List.map_flatMap]
  induction l with
  | nil => rfl
  | cons a l ih =>
      rw [List.flatMap_cons, List.sum_append, List.map_cons, List.sum_cons, ih]

theorem finsetSum_listSum (S : Finset β) (l : List α) (h : β → α → γ) :
    (∑ b in S, (l.map (h b)).sum) = (l.map (fun a => ∑ b in S, h b a)).sum := by
  induction l with
  | nil => simp
  | cons a l ih =>
      simp only [List.map_cons, List.sum_cons]
      rw [Finset.sum_add_distrib, ih]

theorem dot_listSum_left (l : List α) (h : α → Fin n → ℚ) (v : Fin n → ℚ) :
    Matrix.dotProduct ((l.map h).sum) v =
      (l.map (fun a => Matrix.dotProduct (h a) v)).sum := by
  induction l with
  | nil => simp [Matrix.zero_dotProduct]
  | cons a l ih =>
      simp only [List.map_cons, List.sum_cons]
      rw [Matrix.add_dotProduct, ih]

theorem dot_listSum_right (l : List α) (u : Fin n → ℚ) (h : α → Fin n → ℚ) :
    Matrix.dotProduct u ((l.map h).sum) =
      (l.map (fun a => Matrix.dotProduct u (h a))).sum := by
  induction l with
  | nil => simp [Matrix.dotProduct_zero]
  | cons a l ih =>
      simp only [List.map_cons, List.sum_cons]
      rw [Matrix.dotProduct_add, ih]

theorem dot_finsetSum_left (S : Finset β) (h : β → Fin n → ℚ) (v : Fin n → ℚ) :
    Matrix.dotProduct (∑ b in S, h b) v = ∑ b in S, Matrix.dotProduct (h b) v := by
  unfold Matrix.dotProduct
  simp only [Finset.sum_apply, Finset.sum_mul]
  rw [Finset.sum_comm]

theorem dot_ite_left (c : Prop) [Decidable c] (a v : Fin n → ℚ) :
    Matrix.dotProduct (if c then a else 0) v =
      if c then Matrix.dotProduct a v else 0 := by
  by_cases hc : c
  · simp [hc]
  · simp [hc, Matrix.zero_dotProduct]

theorem dot_transpose_mulVec (A : Blk n) (u v : Fin n → ℚ) :
    Matrix.dotProduct (A.transpose.mulVec u) v =
      Matrix.dotProduct u (A.mulVec v) := by
  rw [Matrix.mulVec_transpose, ← Matrix.dotProduct_mulVec]

end SumHelpers

/-- Pointwise value after the reverse halo exchange: the local slot plus,
for every outgoing channel and packet whose send point is this slot, the
neighbor value at the matched recv point. -/
theorem reverseExchange_apply (C : CommStructure K) (t : Fin K → Vec n)
    (k : Fin K) (s : ℕ) :
    reverseExchange C t k s =
      t k s + ∑ j : Fin K, ∑ u in Finset.range (C.chanLen k j),
        (if C.sendPt k j u = s then t j (C.recvPt k j u) else 0) := by
  unfold reverseExchange reverseEntries
  rw [accumOver_apply, listSum_flatMap_map]
  refine congrArg (fun z => t k s + z) ?_
  rw [← listSum_map_finRange]
  refine congrArg List.sum (List.map_congr_left fun j _ => ?_)
  rw [List.map_map, ← listSum_map_range]
  rfl

/-- Single-partition adjoint identity: summing the transposed local
product against yv over all local points equals summing the forward local
product against xv over owned points. -/
theorem local_adjoint (A : SysMatrix n) (xv yv : Vec n)
    (hcols : ∀ r < A.nPointDomain, ∀ idx ∈ rowIdx A r, A.col_ind idx < A.nPoint) :
    (∑ p in Finset.range A.nPoint, Matrix.dotProduct (mvpTLocal A xv p) (yv p))
      = ∑ i in Finset.range A.nPointDomain,
          Matrix.dotProduct (mvpLocal A yv i) (xv i) := by
  have step1 : ∀ p, Matrix.dotProduct (mvpTLocal A xv p) (yv p) =
      ((mvpTEntries A xv).map
        (fun e => if e.1 = p then Matrix.dotProduct e.2 (yv p) else 0)).sum := by
    intro p
    rw [mvpTLocal_apply, dot_listSum_left]
    refine congrArg List.sum (List.map_congr_left fun e _ => ?_)
    exact dot_ite_left _ _ _
  calc
    (∑ p in Finset.range A.nPoint, Matrix.dotProduct (mvpTLocal A xv p) (yv p))
        = ((mvpTEntries A xv).map
            (fun e => ∑ p in Finset.range A.nPoint,
              if e.1 = p then Matrix.dotProduct e.2 (yv p) else 0)).sum := by
          rw [← finsetSum_listSum]
          exact Finset.sum_congr rfl fun p _ => step1 p
    _ = ((mvpTEntries A xv).map
            (fun e => Matrix.dotProduct e.2 (yv e.1))).sum := by
          refine congrArg List.sum (List.map_congr_left fun e he => ?_)
          rw [Finset.sum_ite_eq]
          rcases List.mem_flatMap.mp he with ⟨r, hr, he2⟩
          rcases List.mem_map.mp he2 with ⟨idx, hidx, hidx2⟩
          have : e.1 < A.nPoint := by
            rw [← hidx2]
            exact hcols r (List.mem_range.mp hr) idx hidx
          rw [if_pos (Finset.mem_range.mpr this)]
    _ = ((List.range A.nPointDomain).map (fun r =>
            ((rowIdx A r).map (fun idx =>
              Matrix.dotProduct ((A.val idx).transpose.mulVec (xv r))
                (yv (A.col_ind idx)))).sum)).sum := by
          unfold mvpTEntries
          rw [listSum_flatMap_map]
          refine congrArg List.sum (List.map_congr_left fun r _ => ?_)
          rw [List.map_map]
          rfl
    _ = ((List.range A.nPointDomain).map (fun r =>
            Matrix.dotProduct (mvpLocal A yv r) (xv r))).sum := by
          refine congrArg List.sum (List.map_congr_left fun r hr => ?_)
          have h2 : ((rowIdx A r).map (fun idx =>
              Matrix.dotProduct ((A.val idx).transpose.mulVec (xv r))
                (yv (A.col_ind idx)))).sum =
              ((rowIdx A r).map (fun idx =>
                Matrix.dotProduct (xv r)
                  ((A.val idx).mulVec (yv (A.col_ind idx))))).sum := by
            refine congrArg List.sum (List.map_congr_left fun idx _ => ?_)
            exact dot_transpose_mulVec _ _ _
          rw [h2, ← dot_listSum_right, ← mvpLocal_apply A yv (List.mem_range.mp hr),
            Matrix.dotProduct_comm]
    _ = ∑ i in Finset.range A.nPointDomain,
          Matrix.dotProduct (mvpLocal A yv i) (xv i) := listSum_map_range _ _

/-- Dot product of two distributed vectors over the locally owned points
of every partition, summed across partitions. -/
def globalDotOwned (parts : Fin K → SysMatrix n) (F X : Fin K → Vec n) : ℚ :=
  ∑ k : Fin K, ∑ s in Finset.range ((parts k).nPointDomain),
    Matrix.dotProduct (F k s) (X k s)

/-- C2: for every matrix and conforming vectors x and y, the dot product
of MatrixVectorProductTransposed(A, x) with y equals the dot product of
MatrixVectorProduct(A, y) with x (transpose/adjoint identity), exactly
over the rationals, for any number K of partitions.  The hypotheses state
that the communication lists are consistent (send points owned, recv
points halo, each halo point received once, every halo column of the
matrix is a listed ghost) and that y is halo-consistent. -/
theorem C2_transpose_adjoint_identity (parts : Fin K → SysMatrix n)
    (C : CommStructure K) (x y : Fin K → Vec n)
    (hnp : ∀ k, (parts k).nPointDomain ≤ (parts k).nPoint)
    (hsend : ∀ k j : Fin K, ∀ u < C.chanLen k j,
      C.sendPt k j u < (parts k).nPointDomain)
    (hrecv : ∀ k j : Fin K, ∀ u < C.chanLen k j,
      (parts j).nPointDomain ≤ C.recvPt k j u ∧ C.recvPt k j u < (parts j).nPoint)
    (hnodup : ∀ j, (recvDests C j).Nodup)
    (hcols : ∀ k : Fin K, ∀ r < (parts k).nPointDomain, ∀ idx ∈ rowIdx (parts k) r,
      (parts k).col_ind idx < (parts k).nPoint ∧
      ((parts k).nPointDomain ≤ (parts k).col_ind idx →
        (parts k).col_ind idx ∈ recvDests C k))
    (hycons : ∀ k j : Fin K, ∀ u < C.chanLen k j,
      y j (C.recvPt k j u) = y k (C.sendPt k j u)) :
    globalDotOwned parts (MatrixVectorProductTransposed parts C x) y
      = globalDotOwned parts (MatrixVectorProduct parts C y) x := by
  have hfwd : ∀ k : Fin K, ∀ i < (parts k).nPointDomain,
      MatrixVectorProduct parts C y k i = mvpLocal (parts k) (y k) i := by
    intro k i hi
    unfold MatrixVectorProduct forwardExchange
    refine scatterOver_not_mem _ _ _ ?_
    rw [forwardEntries_fst]
    intro hmem
    unfold recvDests at hmem
    rcases List.mem_flatMap.mp hmem with ⟨j, _, hmem2⟩
    rcases List.mem_map.mp hmem2 with ⟨u, hu, hpt⟩
    have := (hrecv j k u (List.mem_range.mp hu)).1
    omega
  have hBbridge : ∀ j : Fin K,
      (∑ k : Fin K, ∑ u in Finset.range (C.chanLen k j),
        Matrix.dotProduct (mvpTLocal (parts j) (x j) (C.recvPt k j u))
          (y j (C.recvPt k j u)))
        = ((recvDests C j).map (fun p =>
            Matrix.dotProduct (mvpTLocal (parts j) (x j) p) (y j p))).sum := by
    intro j
    refine Eq.symm ?_
    unfold recvDests
    rw [listSum_flatMap_map, listSum_map_finRange]
    refine Finset.sum_congr rfl fun a _ => ?_
    rw [List.map_map, listSum_map_range]
    rfl
  have hhalo : ∀ j : Fin K,
      ((recvDests C j).map (fun p =>
        Matrix.dotProduct (mvpTLocal (parts j) (x j) p) (y j p))).sum
        = ∑ p in Finset.Ico (parts j).nPointDomain (parts j).nPoint,
            Matrix.dotProduct (mvpTLocal (parts j) (x j) p) (y j p) := by
    intro j
    rw [← List.sum_toFinset _ (hnodup j)]
    refine Finset.sum_subset ?_ ?_
    · intro p hp
      rw [List.mem_toFinset] at hp
      unfold recvDests at hp
      rcases List.mem_flatMap.mp hp with ⟨k, _, hmem2⟩
      rcases List.mem_map.mp hmem2 with ⟨u, hu, hpt⟩
      have := hrecv k j u (List.mem_range.mp hu)
      rw [Finset.mem_Ico]
      omega
    · intro p hp hnotin
      rw [List.mem_toFinset] at hnotin
      rw [Finset.mem_Ico] at hp
      rw [mvpTLocal_eq_zero, Matrix.zero_dotProduct]
      intro r hr idx hidx hcol
      exact hnotin (hcol ▸ (hcols j r hr idx hidx).2 (hcol ▸ hp.1))
  calc
    globalDotOwned parts (MatrixVectorProductTransposed parts C x) y
        = (∑ k : Fin K, ∑ s in Finset.range ((parts k).nPointDomain),
            Matrix.dotProduct (mvpTLocal (parts k) (x k) s) (y k s))
          + ∑ k : Fin K, ∑ j : Fin K, ∑ u in Finset.range (C.chanLen k j),
              Matrix.dotProduct
                (mvpTLocal (parts j) (x j) (C.recvPt k j u))
                (y j (C.recvPt k j u)) := by
        unfold globalDotOwned MatrixVectorProductTransposed
        rw [← Finset.sum_add_distrib]
        refine Finset.sum_congr rfl fun k _ => ?_
        have hinner : ∀ s ∈ Finset.range ((parts k).nPointDomain),
            Matrix.dotProduct
              (reverseExchange C (fun a => mvpTLocal (parts a) (x a)) k s) (y k s)
            = Matrix.dotProduct (mvpTLocal (parts k) (x k) s) (y k s)
              + ∑ j : Fin K, ∑ u in Finset.range (C.chanLen k j),
                  (if C.sendPt k j u = s then
                    Matrix.dotProduct
                      (mvpTLocal (parts j) (x j) (C.recvPt k j u)) (y k s)
                  else 0) := by
          intro s _
          rw [reverseExchange_apply, Matrix.add_dotProduct, dot_finsetSum_left]
          refine congrArg _ (Finset.sum_congr rfl fun j _ => ?_)
          rw [dot_finsetSum_left]
          refine Finset.sum_congr rfl fun u _ => ?_
          exact dot_ite_left _ _ _
        rw [Finset.sum_congr rfl hinner, Finset.sum_add_distrib]
        refine congrArg _ ?_
        rw [Finset.sum_comm]
        refine Finset.sum_congr rfl fun j _ => ?_
        rw [Finset.sum_comm]
        refine Finset.sum_congr rfl fun u hu => ?_
        rw [Finset.sum_ite_eq, if_pos
          (Finset.mem_range.mpr (hsend k j u (Finset.mem_range.mp hu))),
          hycons k j u (Finset.mem_range.mp hu)]
    _ = (∑ k : Fin K, ∑ s in Finset.range ((parts k).nPointDomain),
            Matrix.dotProduct (mvpTLocal (parts k) (x k) s) (y k s))
          + ∑ j : Fin K,
              ∑ p in Finset.Ico (parts j).nPointDomain (parts j).nPoint,
                Matrix.dotProduct (mvpTLocal (parts j) (x j) p) (y j p) := by
        refine congrArg _ ?_
        rw [Finset.sum_comm]
        exact Finset.sum_congr rfl fun j _ => (hBbridge j).trans (hhalo j)
    _ = ∑ k : Fin K, ∑ p in Finset.range ((parts k).nPoint),
            Matrix.dotProduct (mvpTLocal (parts k) (x k) p) (y k p) := by
        rw [← Finset.sum_add_distrib]
        refine Finset.sum_congr rfl fun k _ => ?_
        rw [Finset.range_eq_Ico]
        exact Finset.sum_Ico_consecutive _ (Nat.zero_le _) (hnp k)
    _ = ∑ k : Fin K, ∑ i in Finset.range ((parts k).nPointDomain),
            Matrix.dotProduct (mvpLocal (parts k) (y k) i) (x k i) := by
        refine Finset.sum_congr rfl fun k _ => ?_
        exact local_adjoint (parts k) (x k) (y k)
          (fun r hr idx hidx => (hcols k r hr idx hidx).1)
    _ = globalDotOwned parts (MatrixVectorProduct parts C y) x := by
        unfold globalDotOwned
        refine Finset.sum_congr rfl fun k _ => ?_
        refine Finset.sum_congr rfl fun i hi => ?_
        rw [hfwd k i (Finset.mem_range.mp hi)]

/-- Halo-consistent vector of the witness world: each rank's ghost slot 1
mirrors the other rank's owned slot 0. -/
def wY (_ : Fin 2) : Vec 1 := fun _ _ => 3

theorem C2_transpose_adjoint_identity_witness :
    ((∀ k, (wPart k).nPointDomain ≤ (wPart k).nPoint)
      ∧ (∀ k j : Fin 2, ∀ u < wComm.chanLen k j,
          wComm.sendPt k j u < (wPart k).nPointDomain)
      ∧ (∀ k j : Fin 2, ∀ u < wComm.chanLen k j,
          (wPart j).nPointDomain ≤ wComm.recvPt k j u
            ∧ wComm.recvPt k j u < (wPart j).nPoint)
      ∧ (∀ j, (recvDests wComm j).Nodup)
      ∧ (∀ k : Fin 2, ∀ r < (wPart k).nPointDomain, ∀ idx ∈ rowIdx (wPart k) r,
          (wPart k).col_ind idx < (wPart k).nPoint ∧
          ((wPart k).nPointDomain ≤ (wPart k).col_ind idx →
            (wPart k).col_ind idx ∈ recvDests wComm k))
      ∧ (∀ k j : Fin 2, ∀ u < wComm.chanLen k j,
          wY j (wComm.recvPt k j u) = wY k (wComm.sendPt k j u)))
    ∧ globalDotOwned wPart (MatrixVectorProductTransposed wPart wComm wVec) wY
        = globalDotOwned wPart (MatrixVectorProduct wPart wComm wY) wVec :=
  ⟨⟨by decide, by decide, by decide, by decide, by decide, by decide⟩,
    C2_transpose_adjoint_identity wPart wComm wVec wY (by decide) (by decide)
      (by decide) (by decide) (by decide) (by decide)⟩

/-! ## ILU preconditioner

The ILU factorization lives in a second block-CSR buffer with its own
(possibly expanded) pattern row_ptr_ilu / col_ind_ilu / dia_ptr_ilu.
MatrixVectorProductSub is modelled from the spec as dense block
multiply-subtract (target -= block times v). -/

structure ILUPattern where
  nPointDomain : ℕ
  row_ptr_ilu : ℕ → ℕ
  col_ind_ilu : ℕ → ℕ
  dia_ptr_ilu : ℕ → ℕ

/-- Sub-diagonal nonzero indices of ILU row i: for (index =
row_ptr_ilu[i]; index < dia_ptr_ilu[i]; index++). -/
def iluLower (P : ILUPattern) (i : ℕ) : List ℕ :=
  List.range' (P.row_ptr_ilu i) (P.dia_ptr_ilu i - P.row_ptr_ilu i)

/-- Super-diagonal nonzero indices of ILU row i: for (index =
dia_ptr_ilu[i]+1; index < row_ptr_ilu[i+1]; index++). -/
def iluUpper (P : ILUPattern) (i : ℕ) : List ℕ :=
  List.range' (P.dia_ptr_ilu i + 1) (P.row_ptr_ilu (i + 1) - (P.dia_ptr_ilu i + 1))

theorem mem_iluLower {P : ILUPattern} {i idx : ℕ} :
    idx ∈ iluLower P i ↔ P.row_ptr_ilu i ≤ idx ∧ idx < P.dia_ptr_ilu i := by
  unfold iluLower
  rw [List.mem_range'_1]
  omega

theorem mem_iluUpper {P : ILUPattern} {i idx : ℕ} :
    idx ∈ iluUpper P i ↔ P.dia_ptr_ilu i + 1 ≤ idx ∧ idx < P.row_ptr_ilu (i + 1) := by
  unfold iluUpper
  rw [List.mem_range'_1]
  omega

/-- Local part of CSysMatrix::ComputeILUPreconditioner (lines 764-803),
before the final halo exchange: copy the owned entries of vec into prod,
forward-solve with the stored lower factors in increasing point order,
then backward-substitute in decreasing point order using the upper blocks
(skipping super-diagonal entries whose column is a halo point) and the
cached inverse diagonal blocks. -/
def iluApplyLocal (P : ILUPattern) (iluVal invM : ℕ → Blk n)
    (vec prod0 : Vec n) : Vec n :=
  let prod1 : Vec n := fun p => if p < P.nPointDomain then vec p else prod0 p
  let prod2 := (List.range' 1 (P.nPointDomain - 1)).foldl (fun pr i =>
    (iluLower P i).foldl (fun pr2 idx =>
      writeAt pr2 i (pr2 i - (iluVal idx).mulVec (pr2 (P.col_ind_ilu idx)))) pr) prod1
  ((List.range P.nPointDomain).reverse).foldl (fun pr i =>
    let s := (iluUpper P i).foldl (fun sv idx =>
      if P.col_ind_ilu idx < P.nPointDomain then
        sv - (iluVal idx).mulVec (pr (P.col_ind_ilu idx))
      else sv) (pr i)
    writeAt pr i ((invM i).mulVec s)) prod2

/-- Parallel induction over a fold: a binary relation preserved by every
step of the fold is preserved by the whole fold. -/
theorem foldl_rel {σ α : Type} (R : σ → σ → Prop) (f : σ → α → σ) (l : List α)
    (h : ∀ s t a, a ∈ l → R s t → R (f s a) (f t a)) :
    ∀ {s t}, R s t → R (l.foldl f s) (l.foldl f t) := by
  induction l with
  | nil => intro s t hst; exact hst
  | cons a l ih =>
      intro s t hst
      exact ih (fun s2 t2 b hb => h s2 t2 b (List.mem_cons_of_mem a hb))
        (h s t a (List.mem_cons_self a l) hst)

/-- Folds of pointwise-equal step functions from equal starts agree. -/
theorem foldl_congr_mem {α β : Type} {f g : β → α → β} {l : List α} {b1 b2 : β}
    (hb : b1 = b2) (h : ∀ b a, a ∈ l → f b a = g b a) :
    l.foldl f b1 = l.foldl g b2 := by
  induction l generalizing b1 b2 with
  | nil => exact hb
  | cons a l ih =>
      rw [List.foldl_cons, List.foldl_cons]
      exact ih (by rw [hb, h b2 a (List.mem_cons_self a l)])
        (fun b c hc => h b c (List.mem_cons_of_mem a hc))

/-- C9: in the backward-substitution pass of ComputeILUPreconditioner,
super-diagonal entries whose column index is a halo point are skipped
(line 796), so before the final halo exchange the output at owned points
does not depend on the halo entries of the input vector (nor on the prior
contents of the halo slots of prod). -/
theorem C9_iluApply_no_halo_dependence (P : ILUPattern) (iluVal invM : ℕ → Blk n)
    (hsorted : ∀ i < P.nPointDomain, ∀ idx ∈ iluLower P i, P.col_ind_ilu idx < i)
    (vec vec2 prod0 prod02 : Vec n)
    (hagree : ∀ p < P.nPointDomain, vec p = vec2 p) :
    ∀ p < P.nPointDomain,
      iluApplyLocal P iluVal invM vec prod0 p =
        iluApplyLocal P iluVal invM vec2 prod02 p := by
  set R : Vec n → Vec n → Prop :=
    fun pr pr2 => ∀ p < P.nPointDomain, pr p = pr2 p with hR
  have hwrite : ∀ (pr pr2 : Vec n) (i : ℕ) (v v2 : Fin n → ℚ), R pr pr2 →
      v = v2 → R (writeAt pr i v) (writeAt pr2 i v2) := by
    intro pr pr2 i v v2 hpr hv p hp
    by_cases hpi : p = i
    · subst hpi
      rw [writeAt_same, writeAt_same, hv]
    · rw [writeAt_other _ _ _ hpi, writeAt_other _ _ _ hpi]
      exact hpr p hp
  have h1 : R (fun p => if p < P.nPointDomain then vec p else prod0 p)
      (fun p => if p < P.nPointDomain then vec2 p else prod02 p) := by
    intro p hp
    simp only []
    rw [if_pos hp, if_pos hp]
    exact hagree p hp
  have h2 := foldl_rel R
    (fun pr i => (iluLower P i).foldl (fun pr2 idx =>
      writeAt pr2 i (pr2 i - (iluVal idx).mulVec (pr2 (P.col_ind_ilu idx)))) pr)
    (List.range' 1 (P.nPointDomain - 1)) ?_ h1
  · have h3 := foldl_rel R
      (fun pr i =>
        writeAt pr i ((invM i).mulVec ((iluUpper P i).foldl (fun sv idx =>
          if P.col_ind_ilu idx < P.nPointDomain then
            sv - (iluVal idx).mulVec (pr (P.col_ind_ilu idx))
          else sv) (pr i))))
      ((List.range P.nPointDomain).reverse) ?_ h2
    · exact h3
    · intro pr pr2 i hi hpr
      have hiDom : i < P.nPointDomain :=
        List.mem_range.mp (List.mem_reverse.mp hi)
      refine hwrite _ _ _ _ _ hpr ?_
      refine congrArg _ (foldl_congr_mem (hpr i hiDom) ?_)
      intro sv idx _
      by_cases hc : P.col_ind_ilu idx < P.nPointDomain
      · rw [if_pos hc, if_pos hc, hpr _ hc]
      · rw [if_neg hc, if_neg hc]
  · intro pr pr2 i hi hpr
    have hiDom : i < P.nPointDomain := by
      rw [List.mem_range'_1] at hi
      omega
    refine foldl_rel R _ (iluLower P i) ?_ hpr
    intro s t idx hidx hst
    refine hwrite _ _ _ _ _ hst ?_
    have hcol : P.col_ind_ilu idx < i := hsorted i hiDom idx hidx
    rw [hst i hiDom, hst _ (Nat.lt_trans hcol hiDom)]

/-- ILU pattern of the C9 witness: two owned points and one halo point;
the owned row 0 has an upper entry whose column is the halo point 2. -/
def wILUPat : ILUPattern where
  nPointDomain := 2
  row_ptr_ilu := fun i => if i = 0 then 0 else if i = 1 then 2 else 4
  col_ind_ilu := fun idx => if idx = 0 then 0 else if idx = 1 then 2 else
    if idx = 2 then 0 else 1
  dia_ptr_ilu := fun i => if i = 0 then 0 else 3

/-- Block values of the C9 witness. -/
def wBlkOne : ℕ → Blk 1 := fun _ => Matrix.of (fun _ _ => 1)

theorem C9_iluApply_no_halo_dependence_witness :
    ((∀ i < wILUPat.nPointDomain, ∀ idx ∈ iluLower wILUPat i,
        wILUPat.col_ind_ilu idx < i)
      ∧ (∀ p < wILUPat.nPointDomain,
          (fun (p : ℕ) (_ : Fin 1) => if p < 2 then (7 : ℚ) else 3) p =
            (fun (_ : ℕ) (_ : Fin 1) => (7 : ℚ)) p))
    ∧ (∀ p < wILUPat.nPointDomain,
        iluApplyLocal wILUPat wBlkOne wBlkOne
            (fun p _ => if p < 2 then (7 : ℚ) else 3) (fun _ _ => 0) p =
          iluApplyLocal wILUPat wBlkOne wBlkOne
            (fun _ _ => (7 : ℚ)) (fun _ _ => 1) p) :=
  ⟨⟨by decide, by decide⟩,
    C9_iluApply_no_halo_dependence wILUPat wBlkOne wBlkOne (by decide)
      _ _ _ _ (by decide)⟩

/-! ## Dense block inversion (CSysMatrix::MatrixInverse, lines 500-555)

The source works on flat row-major nVar*nVar buffers; a buffer is a
function from flat index.  MatrixInverse first copies the input block into
the member scratch buffer `block` while initializing `inverse` to the
identity (lines 513-518), then eliminates in place on `block` and
`inverse` only (lines 530-553) -- the `matrix` argument is never read
again, which is what makes the aliased call MatrixInverse(m, m) sound. -/

/-- A dense block as a flat function of row and column (C array
matrix[iVar*nVar+jVar]). -/
abbrev FlatMat := ℕ → ℕ → ℚ

/-- One inner step of the forward elimination (lines 530-541): weight from
the pivot row, update row i of block for columns j..nVar-1 and row i of
inverse for columns 0..j. -/
def gaussFwdStep (nv : ℕ) (s : FlatMat × FlatMat) (i j : ℕ) : FlatMat × FlatMat :=
  (fun a k => if a = i ∧ j ≤ k ∧ k < nv
      then s.1 a k - s.1 i j / s.1 j j * s.1 j k else s.1 a k,
   fun a k => if a = i ∧ k ≤ j
      then s.2 a k - s.1 i j / s.1 j j * s.2 j k else s.2 a k)

/-- Forward elimination: for iVar in 1..nVar-1, for jVar in 0..iVar-1. -/
def gaussFwd (nv : ℕ) (s : FlatMat × FlatMat) : FlatMat × FlatMat :=
  (List.range' 1 (nv - 1)).foldl (fun s2 i =>
    (List.range i).foldl (fun s3 j => gaussFwdStep nv s3 i j) s2) s

/-- One subtraction step of the backwards substitution (lines 547-549). -/
def gaussBwdStep (nv : ℕ) (s : FlatMat × FlatMat) (i j : ℕ) : FlatMat × FlatMat :=
  (s.1, fun a k => if a = i ∧ k < nv
      then s.2 a k - s.1 i j * s.2 j k else s.2 a k)

/-- One row of the backwards substitution: subtract the rows below, then
divide row i of inverse by the diagonal pivot (lines 545-553). -/
def gaussBwdRow (nv : ℕ) (s : FlatMat × FlatMat) (i : ℕ) : FlatMat × FlatMat :=
  let s2 := (List.range' (i + 1) (nv - 1 - i)).foldl
    (fun s3 j => gaussBwdStep nv s3 i j) s
  (s2.1, fun a k => if a = i ∧ k < nv then s2.2 a k / s2.1 i i else s2.2 a k)

/-- Backwards substitution: for iVar = nVar-1 down to 0. -/
def gaussBwd (nv : ℕ) (s : FlatMat × FlatMat) : FlatMat × FlatMat :=
  ((List.range nv).reverse).foldl (fun s2 i => gaussBwdRow nv s2 i) s

/-- Value-level CSysMatrix::MatrixInverse: copy the input into scratch and
set inverse to the identity (a fresh buffer holds only the nVar*nVar cells
written, taken as 0 outside), then run the elimination. -/
def matrixInverseFlat (nv : ℕ) (m : FlatMat) : FlatMat :=
  (gaussBwd nv (gaussFwd nv
    (fun i j => if i < nv ∧ j < nv then m i j else 0,
     fun i j => if i < nv ∧ j < nv then (if i = j then (1 : ℚ) else 0) else 0))).2

/-- The (iVar, jVar) iteration order of the copy loop of MatrixInverse. -/
def rowMajorPairs (nv : ℕ) : List (ℕ × ℕ) :=
  (List.range nv).flatMap (fun i => (List.range nv).map (fun j => (i, j)))

/-- The copy loop of MatrixInverse (lines 513-518) on a flat memory with
base addresses: per cell, block[i][j] = matrix[i][j] then
inverse[i][j] = (i==j), in row-major order. -/
def memCopyLoop (nv pMat pInv pBlock : ℕ) (mem : ℕ → ℚ) : ℕ → ℚ :=
  (rowMajorPairs nv).foldl (fun mm ij =>
    writeAt (writeAt mm (pBlock + (ij.1 * nv + ij.2)) (mm (pMat + (ij.1 * nv + ij.2))))
      (pInv + (ij.1 * nv + ij.2)) (if ij.1 = ij.2 then 1 else 0)) mem

/-- Read an nv-by-nv block out of flat memory at a base address. -/
def readRegion (nv : ℕ) (mem : ℕ → ℚ) (base : ℕ) : FlatMat :=
  fun i j => if i < nv ∧ j < nv then mem (base + (i * nv + j)) else 0

/-- CSysMatrix::MatrixInverse on a flat memory: run the copy loop on
memory, then the elimination, which reads and writes only the (disjoint)
block-scratch and inverse regions, at value level; the result is the
final content of the inverse region. -/
def MatrixInverse_mem (nv pMat pInv pBlock : ℕ) (mem : ℕ → ℚ) : FlatMat :=
  (gaussBwd nv (gaussFwd nv
    (readRegion nv (memCopyLoop nv pMat pInv pBlock mem) pBlock,
     readRegion nv (memCopyLoop nv pMat pInv pBlock mem) pInv))).2

theorem offset_lt_sq {nv i j : ℕ} (hi : i < nv) (hj : j < nv) :
    i * nv + j < nv * nv := by
  have h1 : i * nv + j < (i + 1) * nv := by
    rw [Nat.succ_mul]
    omega
  exact Nat.lt_of_lt_of_le h1 (Nat.mul_le_mul_right nv hi)

theorem offset_inj {nv i1 j1 i2 j2 : ℕ} (hj1 : j1 < nv) (hj2 : j2 < nv)
    (h : i1 * nv + j1 = i2 * nv + j2) : i1 = i2 ∧ j1 = j2 := by
  have hi : i1 = i2 := by
    rcases Nat.lt_trichotomy i1 i2 with hlt | heq | hgt
    · exfalso
      have : i1 * nv + j1 < (i1 + 1) * nv := by rw [Nat.succ_mul]; omega
      have h2 : (i1 + 1) * nv ≤ i2 * nv := Nat.mul_le_mul_right nv hlt
      omega
    · exact heq
    · exfalso
      have : i2 * nv + j2 < (i2 + 1) * nv := by rw [Nat.succ_mul]; omega
      have h2 : (i2 + 1) * nv ≤ i1 * nv := Nat.mul_le_mul_right nv hgt
      omega
  subst hi
  omega

theorem nodup_flatMap_of {α β : Type} [DecidableEq β] (l : List α) (f : α → List β)
    (hl : l.Nodup) (hf : ∀ a ∈ l, (f a).Nodup)
    (hdisj : ∀ a ∈ l, ∀ b ∈ l, a ≠ b → ∀ x ∈ f a, x ∉ f b) :
    (l.flatMap f).Nodup := by
  induction l with
  | nil => exact List.nodup_nil
  | cons a l ih =>
      rw [List.flatMap_cons]
      rw [List.nodup_cons] at hl
      refine List.Nodup.append (hf a (List.mem_cons_self a l))
        (ih hl.2 (fun b hb => hf b (List.mem_cons_of_mem a hb))
          (fun b hb c hc hbc => hdisj b (List.mem_cons_of_mem a hb)
            c (List.mem_cons_of_mem a hc) hbc)) ?_
      intro x hx hmem
      rcases List.mem_flatMap.mp hmem with ⟨b, hb, hxb⟩
      have hab : a ≠ b := fun h => hl.1 (h ▸ hb)
      exact hdisj a (List.mem_cons_self a l) b (List.mem_cons_of_mem a hb) hab x hx hxb

theorem mem_rowMajorPairs {nv : ℕ} {ij : ℕ × ℕ} :
    ij ∈ rowMajorPairs nv ↔ ij.1 < nv ∧ ij.2 < nv := by
  unfold rowMajorPairs
  constructor
  · intro h
    rcases List.mem_flatMap.mp h with ⟨i, hi, hmem⟩
    rcases List.mem_map.mp hmem with ⟨j, hj, hij⟩
    rw [← hij]
    exact ⟨List.mem_range.mp hi, List.mem_range.mp hj⟩
  · intro ⟨h1, h2⟩
    exact List.mem_flatMap.mpr ⟨ij.1, List.mem_range.mpr h1,
      List.mem_map.mpr ⟨ij.2, List.mem_range.mpr h2, rfl⟩⟩

theorem rowMajorPairs_offsets_nodup (nv : ℕ) :
    ((rowMajorPairs nv).map (fun ij => ij.1 * nv + ij.2)).Nodup := by
  unfold rowMajorPairs
  rw [List.map_flatMap]
  refine nodup_flatMap_of _ _ (List.nodup_range nv) ?_ ?_
  · intro i _
    rw [List.map_map]
    refine List.Nodup.map ?_ (List.nodup_range nv)
    intro a b hab
    simpa using hab
  · intro i1 h1 i2 h2 h12 x hx1 hx2
    rw [List.map_map] at hx1 hx2
    rcases List.mem_map.mp hx1 with ⟨j1, hj1, he1⟩
    rcases List.mem_map.mp hx2 with ⟨j2, hj2, he2⟩
    have : i1 * nv + j1 = i2 * nv + j2 := by
      simp only [Function.comp_def] at he1 he2
      rw [he1, he2]
    exact h12 (offset_inj (List.mem_range.mp hj1) (List.mem_range.mp hj2) this).1

/-- Core of the aliased-call argument: running the copy loop with the
inverse buffer aliased to the matrix buffer still deposits the original
matrix values in the (disjoint) scratch region, because each cell is read
before the identity value overwrites it and distinct cells have distinct
addresses. -/
theorem memCopy_aliased (nv pMat pBlock : ℕ) (l : List (ℕ × ℕ)) (mem : ℕ → ℚ)
    (hb : ∀ ij ∈ l, ij.1 < nv ∧ ij.2 < nv)
    (hnd : (l.map (fun ij => ij.1 * nv + ij.2)).Nodup)
    (hdisj : ∀ o1 o2, o1 < nv * nv → o2 < nv * nv → pBlock + o1 ≠ pMat + o2) :
    (∀ ij ∈ l,
      (l.foldl (fun mm ij2 =>
        writeAt (writeAt mm (pBlock + (ij2.1 * nv + ij2.2)) (mm (pMat + (ij2.1 * nv + ij2.2))))
          (pMat + (ij2.1 * nv + ij2.2)) (if ij2.1 = ij2.2 then 1 else 0)) mem)
          (pBlock + (ij.1 * nv + ij.2)) = mem (pMat + (ij.1 * nv + ij.2))
      ∧ (l.foldl (fun mm ij2 =>
          writeAt (writeAt mm (pBlock + (ij2.1 * nv + ij2.2)) (mm (pMat + (ij2.1 * nv + ij2.2))))
            (pMat + (ij2.1 * nv + ij2.2)) (if ij2.1 = ij2.2 then 1 else 0)) mem)
            (pMat + (ij.1 * nv + ij.2)) = (if ij.1 = ij.2 then (1 : ℚ) else 0))
    ∧ (∀ a, (∀ ij ∈ l, a ≠ pBlock + (ij.1 * nv + ij.2) ∧ a ≠ pMat + (ij.1 * nv + ij.2)) →
        (l.foldl (fun mm ij2 =>
          writeAt (writeAt mm (pBlock + (ij2.1 * nv + ij2.2)) (mm (pMat + (ij2.1 * nv + ij2.2))))
            (pMat + (ij2.1 * nv + ij2.2)) (if ij2.1 = ij2.2 then 1 else 0)) mem) a = mem a) := by
  induction l generalizing mem with
  | nil => exact ⟨fun ij h => absurd h (List.not_mem_nil ij), fun a _ => rfl⟩
  | cons hd tl ih =>
      rw [List.map_cons, List.nodup_cons] at hnd
      have hhd := hb hd (List.mem_cons_self hd tl)
      have hbtl : ∀ ij ∈ tl, ij.1 < nv ∧ ij.2 < nv :=
        fun ij h => hb ij (List.mem_cons_of_mem hd h)
      have ho0 : hd.1 * nv + hd.2 < nv * nv := offset_lt_sq hhd.1 hhd.2
      have hotl : ∀ ij ∈ tl, ij.1 * nv + ij.2 < nv * nv :=
        fun ij h => offset_lt_sq (hbtl ij h).1 (hbtl ij h).2
      have hne : ∀ ij ∈ tl, hd.1 * nv + hd.2 ≠ ij.1 * nv + ij.2 := by
        intro ij h hcontra
        exact hnd.1 (hcontra ▸ List.mem_map.mpr ⟨ij, h, rfl⟩)
      set mem1 : ℕ → ℚ :=
        writeAt (writeAt mem (pBlock + (hd.1 * nv + hd.2)) (mem (pMat + (hd.1 * nv + hd.2))))
          (pMat + (hd.1 * nv + hd.2)) (if hd.1 = hd.2 then 1 else 0) with hmem1
      have hm1Block : mem1 (pBlock + (hd.1 * nv + hd.2)) = mem (pMat + (hd.1 * nv + hd.2)) := by
        rw [hmem1, writeAt_other _ _ _ (hdisj _ _ ho0 ho0), writeAt_same]
      have hm1Mat : mem1 (pMat + (hd.1 * nv + hd.2)) = (if hd.1 = hd.2 then (1 : ℚ) else 0) := by
        rw [hmem1, writeAt_same]
      have hm1Other : ∀ a, a ≠ pBlock + (hd.1 * nv + hd.2) → a ≠ pMat + (hd.1 * nv + hd.2) →
          mem1 a = mem a := by
        intro a h1 h2
        rw [hmem1, writeAt_other _ _ _ h2, writeAt_other _ _ _ h1]
      obtain ⟨ihmem, ihother⟩ := ih mem1 hbtl hnd.2
      refine ⟨?_, ?_⟩
      · intro ij hij
        rcases List.mem_cons.mp hij with heq | htl
        · subst heq
          constructor
          · rw [List.foldl_cons]
            rw [ihother (pBlock + (ij.1 * nv + ij.2)) ?_]
            · exact hm1Block
            · intro ij2 h2
              refine ⟨?_, ?_⟩
              · intro hcontra
                exact hne ij2 h2 (Nat.add_left_cancel hcontra)
              · exact hdisj _ _ ho0 (hotl ij2 h2)
          · rw [List.foldl_cons]
            rw [ihother (pMat + (ij.1 * nv + ij.2)) ?_]
            · exact hm1Mat
            · intro ij2 h2
              refine ⟨?_, ?_⟩
              · exact fun hcontra => hdisj _ _ (hotl ij2 h2) ho0 hcontra.symm
              · intro hcontra
                exact hne ij2 h2 (Nat.add_left_cancel hcontra)
        · have := ihmem ij htl
          rw [List.foldl_cons]
          refine ⟨this.1.trans ?_, this.2⟩
          refine hm1Other _ ?_ ?_
          · exact fun hcontra => hdisj _ _ ho0 (hotl ij htl) hcontra.symm
          · intro hcontra
            exact hne ij htl (Nat.add_left_cancel hcontra.symm)
      · intro a ha
        rw [List.foldl_cons]
        rw [ihother a (fun ij2 h2 => ha ij2 (List.mem_cons_of_mem hd h2))]
        have hahd := ha hd (List.mem_cons_self hd tl)
        exact hm1Other a hahd.1 hahd.2

/-- C10: MatrixInverse(matrix, inverse) produces its result for the block
held in matrix at call time even when the inverse output buffer is the
same buffer as the matrix input (the aliased in-place call used by the
linelet Thomas forward pass, MatrixInverse(inv_dm1, inv_dm1)), because the
input is first copied into the internal scratch storage before the output
buffer is initialized: the aliased call equals the out-of-place value-level
MatrixInverse of the call-time contents. -/
theorem C10_matrixInverse_inplace (nv pMat pBlock : ℕ) (mem : ℕ → ℚ)
    (hdisj : ∀ o1 o2, o1 < nv * nv → o2 < nv * nv → pBlock + o1 ≠ pMat + o2) :
    MatrixInverse_mem nv pMat pMat pBlock mem
      = matrixInverseFlat nv (fun i j => mem (pMat + (i * nv + j))) := by
  obtain ⟨hmem, _⟩ := memCopy_aliased nv pMat pBlock (rowMajorPairs nv) mem
    (fun ij h => mem_rowMajorPairs.mp h) (rowMajorPairs_offsets_nodup nv) hdisj
  unfold MatrixInverse_mem matrixInverseFlat memCopyLoop
  have hblockRegion :
      readRegion nv ((rowMajorPairs nv).foldl (fun mm ij =>
        writeAt (writeAt mm (pBlock + (ij.1 * nv + ij.2)) (mm (pMat + (ij.1 * nv + ij.2))))
          (pMat + (ij.1 * nv + ij.2)) (if ij.1 = ij.2 then 1 else 0)) mem) pBlock
      = fun i j => if i < nv ∧ j < nv then mem (pMat + (i * nv + j)) else 0 := by
    funext i j
    unfold readRegion
    by_cases h : i < nv ∧ j < nv
    · rw [if_pos h, if_pos h]
      exact (hmem (i, j) (mem_rowMajorPairs.mpr h)).1
    · rw [if_neg h, if_neg h]
  have hinvRegion :
      readRegion nv ((rowMajorPairs nv).foldl (fun mm ij =>
        writeAt (writeAt mm (pBlock + (ij.1 * nv + ij.2)) (mm (pMat + (ij.1 * nv + ij.2))))
          (pMat + (ij.1 * nv + ij.2)) (if ij.1 = ij.2 then 1 else 0)) mem) pMat
      = fun i j => if i < nv ∧ j < nv then (if i = j then (1 : ℚ) else 0) else 0 := by
    funext i j
    unfold readRegion
    by_cases h : i < nv ∧ j < nv
    · rw [if_pos h, if_pos h]
      exact (hmem (i, j) (mem_rowMajorPairs.mpr h)).2
    · rw [if_neg h, if_neg h]
  rw [hblockRegion, hinvRegion]

theorem C10_matrixInverse_inplace_witness :
    (∀ o1 < 2 * 2, ∀ o2 < 2 * 2, 100 + o1 ≠ 0 + o2)
    ∧ MatrixInverse_mem 2 0 0 100 (fun a => (a : ℚ) + 1)
        = matrixInverseFlat 2 (fun i j => ((0 + (i * 2 + j) : ℕ) : ℚ) + 1) :=
  ⟨by decide, C10_matrixInverse_inplace 2 0 100 (fun a => (a : ℚ) + 1)
    (fun o1 o2 h1 h2 => by omega)⟩

/-! ## BuildILUPreconditioner (lines 674-761)

Modelled from the spec where CSysMatrix.inl is not in the sources:
MatrixMatrixProduct is the dense block product, MatrixSubtraction the
dense block difference, GetBlock_ILUMatrix the linear search of ILU row i
for the slot of column k (null when the entry is outside the pattern), and
InverseDiagonalBlock_ILUMatrix the dense MatrixInverse of the diagonal
block (the slot at dia_ptr_ilu).  The factorization state is the pair
(ILU_matrix, invM). -/

/-- Dense block inverse at block level, wrapping the flat MatrixInverse
algorithm. -/
def invBlk (b : Blk n) : Blk n :=
  Matrix.of (fun i j =>
    matrixInverseFlat n
      (fun a c => if h : a < n ∧ c < n then b ⟨a, h.1⟩ ⟨c, h.2⟩ else 0) i.val j.val)

/-- All nonzero indices of ILU row i. -/
def iluRow (P : ILUPattern) (i : ℕ) : List ℕ :=
  List.range' (P.row_ptr_ilu i) (P.row_ptr_ilu (i + 1) - P.row_ptr_ilu i)

theorem mem_iluRow {P : ILUPattern} {i idx : ℕ} :
    idx ∈ iluRow P i ↔ P.row_ptr_ilu i ≤ idx ∧ idx < P.row_ptr_ilu (i + 1) := by
  unfold iluRow
  rw [List.mem_range'_1]
  omega

/-- GetBlock_ILUMatrix, modelled from the spec: search ILU row i for the
nonzero slot holding column k; none when (i,k) is outside the pattern. -/
def findILUIndex (P : ILUPattern) (i k : ℕ) : Option ℕ :=
  (iluRow P i).find? (fun idx => P.col_ind_ilu idx == k)

theorem findILUIndex_spec {P : ILUPattern} {i k idx : ℕ}
    (h : findILUIndex P i k = some idx) :
    idx ∈ iluRow P i ∧ P.col_ind_ilu idx = k := by
  unfold findILUIndex at h
  exact ⟨List.mem_of_find?_eq_some h, by simpa using List.find?_some h⟩

/-- Processing of one sub-diagonal entry (i, j) of the factorization
(lines 721-756): weight = ILU[i][j] * invM[j]; for every super-diagonal
entry (j,k) of row j, if the slot (i,k) exists in the ILU pattern,
subtract weight * ILU[j][k] from it; finally store weight in the (i,j)
slot. -/
def iluProcessEntry (P : ILUPattern) (st : (ℕ → Blk n) × (ℕ → Blk n))
    (i index : ℕ) : (ℕ → Blk n) × (ℕ → Blk n) :=
  let j := P.col_ind_ilu index
  let weight := st.1 index * st.2 j
  let ilu2 := (iluUpper P j).foldl (fun ilu index2 =>
    match findILUIndex P i (P.col_ind_ilu index2) with
    | some idxik => writeAt ilu idxik (ilu idxik - weight * ilu index2)
    | none => ilu) st.1
  (writeAt ilu2 index weight, st.2)

/-- Processing of one owned row i of the factorization (lines 713-757):
cache the inverse of the previous (already eliminated) diagonal block in
invM, then process the row's sub-diagonal entries in increasing index
order. -/
def iluProcessRow (P : ILUPattern) (st : (ℕ → Blk n) × (ℕ → Blk n))
    (i : ℕ) : (ℕ → Blk n) × (ℕ → Blk n) :=
  (iluLower P i).foldl (fun st2 index => iluProcessEntry P st2 i index)
    (st.1, writeAt st.2 (i - 1) (invBlk (st.1 (P.dia_ptr_ilu (i - 1)))))

/-- The in-place factorization loop of BuildILUPreconditioner
(lines 711-760): rows in increasing order 1..nPointDomain-1, then invert
the last diagonal block. -/
def iluFactorize (P : ILUPattern) (st0 : (ℕ → Blk n) × (ℕ → Blk n)) :
    (ℕ → Blk n) × (ℕ → Blk n) :=
  let st1 := (List.range' 1 (P.nPointDomain - 1)).foldl
    (fun st i => iluProcessRow P st i) st0
  (st1.1, writeAt st1.2 (P.nPointDomain - 1)
    (invBlk (st1.1 (P.dia_ptr_ilu (P.nPointDomain - 1)))))

/-- BuildILUPreconditioner for fill level 0, non-transposed: the ILU
buffer starts as a direct copy of the matrix (lines 684-687), then the
factorization loop runs. -/
def BuildILUPreconditioner0 (A : SysMatrix n) (P : ILUPattern)
    (invM0 : ℕ → Blk n) : (ℕ → Blk n) × (ℕ → Blk n) :=
  iluFactorize P (A.val, invM0)

/-- Effect of folding guarded write-subtract updates over a list: each
found target ends holding its start value minus weight times the start
value at the triggering entry, and every slot no entry maps to is
untouched.  Requires targets distinct per entry and disjoint from the
read positions. -/
theorem foldl_writeSub_effect (L : List ℕ) (f : ℕ → Option ℕ)
    (weight : Blk n) (ilu0 : ℕ → Blk n)
    (hnd : L.Nodup)
    (hread : ∀ a ∈ L, ∀ b ∈ L, ∀ t, f b = some t → t ≠ a)
    (hinj : ∀ a ∈ L, ∀ b ∈ L, ∀ t, f a = some t → f b = some t → a = b) :
    (∀ a ∈ L, ∀ t, f a = some t →
      (L.foldl (fun ilu index2 =>
        match f index2 with
        | some idxik => writeAt ilu idxik (ilu idxik - weight * ilu index2)
        | none => ilu) ilu0) t = ilu0 t - weight * ilu0 a)
    ∧ (∀ idx, (∀ a ∈ L, f a ≠ some idx) →
        (L.foldl (fun ilu index2 =>
          match f index2 with
          | some idxik => writeAt ilu idxik (ilu idxik - weight * ilu index2)
          | none => ilu) ilu0) idx = ilu0 idx) := by
  induction L generalizing ilu0 with
  | nil => exact ⟨fun a ha => absurd ha (List.not_mem_nil a), fun idx _ => rfl⟩
  | cons hd tl ih =>
      rw [List.nodup_cons] at hnd
      have hreadT : ∀ a ∈ tl, ∀ b ∈ tl, ∀ t, f b = some t → t ≠ a :=
        fun a ha b hb => hread a (List.mem_cons_of_mem hd ha) b (List.mem_cons_of_mem hd hb)
      have hinjT : ∀ a ∈ tl, ∀ b ∈ tl, ∀ t, f a = some t → f b = some t → a = b :=
        fun a ha b hb => hinj a (List.mem_cons_of_mem hd ha) b (List.mem_cons_of_mem hd hb)
      rcases hfhd : f hd with _ | t0
      · -- head entry absent from the pattern: state unchanged by the head
        obtain ⟨ih1, ih2⟩ := ih ilu0 hnd.2 hreadT hinjT
        refine ⟨?_, ?_⟩
        · intro a ha t hft
          rcases List.mem_cons.mp ha with heq | htl
          · rw [heq, hfhd] at hft; cases hft
          · rw [List.foldl_cons, hfhd]
            exact ih1 a htl t hft
        · intro idx hidx
          rw [List.foldl_cons, hfhd]
          exact ih2 idx (fun a ha => hidx a (List.mem_cons_of_mem hd ha))
      · -- head entry present: one write, then the tail fold
        set ilu1 := writeAt ilu0 t0 (ilu0 t0 - weight * ilu0 hd) with hilu1
        obtain ⟨ih1, ih2⟩ := ih ilu1 hnd.2 hreadT hinjT
        refine ⟨?_, ?_⟩
        · intro a ha t hft
          rcases List.mem_cons.mp ha with heq | htl
          · rw [heq, hfhd] at hft
            injection hft with hft2
            rw [List.foldl_cons, hfhd, heq, ← hft2]
            have hnb : ∀ b ∈ tl, f b ≠ some t0 := by
              intro b hb hcontra
              exact hnd.1 ((hinj hd (List.mem_cons_self hd tl) b
                (List.mem_cons_of_mem hd hb) t0 hfhd hcontra) ▸ hb)
            rw [ih2 t0 hnb, hilu1, writeAt_same]
          · rw [List.foldl_cons, hfhd]
            have htne : t ≠ t0 := by
              intro hcontra
              subst hcontra
              exact hnd.1 ((hinj a (List.mem_cons_of_mem hd htl)
                hd (List.mem_cons_self hd tl) t hft hfhd) ▸ htl)
            have hane : a ≠ t0 := by
              intro hcontra
              exact (hread a (List.mem_cons_of_mem hd htl)
                hd (List.mem_cons_self hd tl) t0 hfhd) (hcontra ▸ rfl)
            rw [ih1 a htl t hft, hilu1,
              writeAt_other _ _ _ htne, writeAt_other _ _ _ hane]
        · intro idx hidx
          rw [List.foldl_cons, hfhd]
          have hne0 : idx ≠ t0 := by
            intro hcontra
            exact hidx hd (List.mem_cons_self hd tl) (hcontra ▸ hfhd)
          rw [ih2 idx (fun a ha => hidx a (List.mem_cons_of_mem hd ha)), hilu1,
            writeAt_other _ _ _ hne0]

/-- C3: in BuildILUPreconditioner, owned rows are processed in increasing
order (definitional in iluFactorize), and for every sub-diagonal entry
(i,j) the algorithm computes weight = ILU[i][j] * inv(ILU[j][j]) (the
cached inverse in invM, conjunct e), updates ILU[i][k] -= weight*ILU[j][k]
for a super-diagonal entry (j,k) exactly when the slot (i,k) exists in the
ILU pattern -- updates to entries absent from the pattern are silently
dropped (conjuncts b and c) -- and stores weight into the lower-triangular
slot (i,j) (conjunct a). -/
theorem C3_buildILU_spec (P : ILUPattern) (st : (ℕ → Blk n) × (ℕ → Blk n))
    (i index : ℕ)
    (hlow : index ∈ iluLower P i)
    (hrows : P.row_ptr_ilu (P.col_ind_ilu index + 1) ≤ P.row_ptr_ilu i)
    (hupperGt : ∀ index2 ∈ iluUpper P (P.col_ind_ilu index),
      P.col_ind_ilu index < P.col_ind_ilu index2)
    (hupperNodup : ((iluUpper P (P.col_ind_ilu index)).map P.col_ind_ilu).Nodup) :
    ((iluProcessEntry P st i index).1 index
        = st.1 index * st.2 (P.col_ind_ilu index))
    ∧ (∀ index2 ∈ iluUpper P (P.col_ind_ilu index), ∀ idxik,
        findILUIndex P i (P.col_ind_ilu index2) = some idxik →
        (iluProcessEntry P st i index).1 idxik
          = st.1 idxik - (st.1 index * st.2 (P.col_ind_ilu index)) * st.1 index2)
    ∧ (∀ idx, idx ≠ index →
        (∀ index2 ∈ iluUpper P (P.col_ind_ilu index),
          findILUIndex P i (P.col_ind_ilu index2) ≠ some idx) →
        (iluProcessEntry P st i index).1 idx = st.1 idx)
    ∧ ((iluProcessEntry P st i index).2 = st.2)
    ∧ (iluProcessRow P st i
        = (iluLower P i).foldl (fun st2 index3 => iluProcessEntry P st2 i index3)
            (st.1, writeAt st.2 (i - 1) (invBlk (st.1 (P.dia_ptr_ilu (i - 1)))))) := by
  have hnd : (iluUpper P (P.col_ind_ilu index)).Nodup := by
    unfold iluUpper
    exact List.nodup_range' _ _
  have hread : ∀ a ∈ iluUpper P (P.col_ind_ilu index),
      ∀ b ∈ iluUpper P (P.col_ind_ilu index), ∀ t,
      findILUIndex P i (P.col_ind_ilu b) = some t → t ≠ a := by
    intro a ha b _ t hfb
    have hrow := (findILUIndex_spec hfb).1
    rw [mem_iluRow] at hrow
    rw [mem_iluUpper] at ha
    omega
  have hinj : ∀ a ∈ iluUpper P (P.col_ind_ilu index),
      ∀ b ∈ iluUpper P (P.col_ind_ilu index), ∀ t,
      findILUIndex P i (P.col_ind_ilu a) = some t →
      findILUIndex P i (P.col_ind_ilu b) = some t → a = b := by
    intro a ha b hb t hfa hfb
    have hca := (findILUIndex_spec hfa).2
    have hcb := (findILUIndex_spec hfb).2
    exact List.inj_on_of_nodup_map hupperNodup ha hb (hca ▸ hcb ▸ rfl)
  obtain ⟨heff1, heff2⟩ := foldl_writeSub_effect
    (iluUpper P (P.col_ind_ilu index))
    (fun index2 => findILUIndex P i (P.col_ind_ilu index2))
    (st.1 index * st.2 (P.col_ind_ilu index)) st.1 hnd hread hinj
  refine ⟨?_, ?_, ?_, rfl, rfl⟩
  · unfold iluProcessEntry
    exact writeAt_same _ _ _
  · intro index2 h2 idxik hfind
    have hne : idxik ≠ index := by
      intro hcontra
      have hcol := (findILUIndex_spec hfind).2
      have := hupperGt index2 h2
      rw [hcontra] at hcol
      omega
    exact Eq.trans (writeAt_other _ _ _ hne) (heff1 index2 h2 idxik hfind)
  · intro idx hne hnot
    exact Eq.trans (writeAt_other _ _ _ hne) (heff2 idx hnot)

/-- Full 3-point ILU pattern of the C3 witness. -/
def wILU3 : ILUPattern where
  nPointDomain := 3
  row_ptr_ilu := fun r => 3 * r
  col_ind_ilu := fun idx => idx % 3
  dia_ptr_ilu := fun r => 4 * r

theorem C3_buildILU_spec_witness :
    ((3 ∈ iluLower wILU3 1)
      ∧ (wILU3.row_ptr_ilu (wILU3.col_ind_ilu 3 + 1) ≤ wILU3.row_ptr_ilu 1)
      ∧ (∀ index2 ∈ iluUpper wILU3 (wILU3.col_ind_ilu 3),
          wILU3.col_ind_ilu 3 < wILU3.col_ind_ilu index2)
      ∧ ((iluUpper wILU3 (wILU3.col_ind_ilu 3)).map wILU3.col_ind_ilu).Nodup)
    ∧ (((iluProcessEntry wILU3 (wBlkOne, wBlkOne) 1 3).1 3
          = (wBlkOne, wBlkOne).1 3 * (wBlkOne, wBlkOne).2 (wILU3.col_ind_ilu 3))
      ∧ (∀ index2 ∈ iluUpper wILU3 (wILU3.col_ind_ilu 3), ∀ idxik,
          findILUIndex wILU3 1 (wILU3.col_ind_ilu index2) = some idxik →
          (iluProcessEntry wILU3 (wBlkOne, wBlkOne) 1 3).1 idxik
            = (wBlkOne, wBlkOne).1 idxik
              - ((wBlkOne, wBlkOne).1 3 * (wBlkOne, wBlkOne).2 (wILU3.col_ind_ilu 3))
                * (wBlkOne, wBlkOne).1 index2)
      ∧ (∀ idx, idx ≠ 3 →
          (∀ index2 ∈ iluUpper wILU3 (wILU3.col_ind_ilu 3),
            findILUIndex wILU3 1 (wILU3.col_ind_ilu index2) ≠ some idx) →
          (iluProcessEntry wILU3 (wBlkOne, wBlkOne) 1 3).1 idx
            = (wBlkOne, wBlkOne).1 idx)
      ∧ ((iluProcessEntry wILU3 (wBlkOne, wBlkOne) 1 3).2 = (wBlkOne, wBlkOne).2)
      ∧ (iluProcessRow wILU3 (wBlkOne, wBlkOne) 1
          = (iluLower wILU3 1).foldl
              (fun st2 index3 => iluProcessEntry wILU3 st2 1 index3)
              ((wBlkOne, wBlkOne).1,
                writeAt (wBlkOne, wBlkOne).2 (1 - 1)
                  (invBlk ((wBlkOne, wBlkOne).1 (wILU3.dia_ptr_ilu (1 - 1))))))) :=
  ⟨⟨by decide, by decide, by decide, by decide⟩,
    C3_buildILU_spec wILU3 (wBlkOne, wBlkOne) 1 3
      (by decide) (by decide) (by decide) (by decide)⟩

/-! ## EnforceSolutionAtNode (lines 1130-1166) -/

/-- Set every diagonal entry of a block to one, keeping the rest (the
loop matrix[mat_begin+iVar*(nVar+1)] = 1.0 at line 1156). -/
def setDiagOnes (blk : Blk n) : Blk n :=
  Matrix.of (fun a c => if a = c then 1 else blk a c)

/-- The inner loop body of the column sweep (lines 1145-1159): if the
entry holds column node_i, fold its product with the enforced value into
b at the row, then replace the block (diagonal ones at the diagonal row,
zero elsewhere). -/
def enforceRowPass (A : SysMatrix n) (node_i : ℕ) (x_i : Fin n → ℚ)
    (st : (ℕ → Blk n) × Vec n) (p : ℕ) : (ℕ → Blk n) × Vec n :=
  (rowIdx A p).foldl (fun st3 idx =>
    if A.col_ind idx = node_i then
      (writeAt st3.1 idx
        (if p = node_i then setDiagOnes (st3.1 idx) else 0),
       writeAt st3.2 p (st3.2 p - (st3.1 idx).mulVec x_i))
    else st3) st

/-- CSysMatrix::EnforceSolutionAtNode: zero the whole block-row node_i,
sweep all rows folding column node_i into b and deleting it (identity
diagonal at the diagonal block), then set b at node_i to the enforced
value. -/
def EnforceSolutionAtNode (A : SysMatrix n) (node_i : ℕ) (x_i : Fin n → ℚ)
    (b : Vec n) : (ℕ → Blk n) × Vec n :=
  let mat1 : ℕ → Blk n := fun idx =>
    if A.row_ptr node_i ≤ idx ∧ idx < A.row_ptr (node_i + 1) then 0 else A.val idx
  let st2 := (List.range A.nPoint).foldl
    (fun st p => enforceRowPass A node_i x_i st p) (mat1, b)
  (st2.1, writeAt st2.2 node_i x_i)

/-- Effect of the column-sweep fold over an arbitrary index list with at
most one entry holding column node_i. -/
theorem enforceFold_effect (A : SysMatrix n) (node_i : ℕ) (x_i : Fin n → ℚ)
    (p : ℕ) (L : List ℕ) (hnd : L.Nodup)
    (hu : ∀ idx1 ∈ L, ∀ idx2 ∈ L,
      A.col_ind idx1 = node_i → A.col_ind idx2 = node_i → idx1 = idx2) :
    ∀ st : (ℕ → Blk n) × Vec n,
    (∀ q, q ≠ p →
      (L.foldl (fun st3 idx =>
        if A.col_ind idx = node_i then
          (writeAt st3.1 idx (if p = node_i then setDiagOnes (st3.1 idx) else 0),
           writeAt st3.2 p (st3.2 p - (st3.1 idx).mulVec x_i))
        else st3) st).2 q = st.2 q)
    ∧ (∀ idx, (A.col_ind idx ≠ node_i ∨ idx ∉ L) →
        (L.foldl (fun st3 idx =>
          if A.col_ind idx = node_i then
            (writeAt st3.1 idx (if p = node_i then setDiagOnes (st3.1 idx) else 0),
             writeAt st3.2 p (st3.2 p - (st3.1 idx).mulVec x_i))
          else st3) st).1 idx = st.1 idx)
    ∧ ((L.foldl (fun st3 idx =>
          if A.col_ind idx = node_i then
            (writeAt st3.1 idx (if p = node_i then setDiagOnes (st3.1 idx) else 0),
             writeAt st3.2 p (st3.2 p - (st3.1 idx).mulVec x_i))
          else st3) st).2 p = st.2 p -
        (L.map (fun idx =>
          if A.col_ind idx = node_i then (st.1 idx).mulVec x_i else 0)).sum)
    ∧ (∀ idx ∈ L, A.col_ind idx = node_i →
        (L.foldl (fun st3 idx =>
          if A.col_ind idx = node_i then
            (writeAt st3.1 idx (if p = node_i then setDiagOnes (st3.1 idx) else 0),
             writeAt st3.2 p (st3.2 p - (st3.1 idx).mulVec x_i))
          else st3) st).1 idx =
          (if p = node_i then setDiagOnes (st.1 idx) else 0)) := by
  induction L with
  | nil =>
      intro st
      exact ⟨fun q _ => rfl, fun idx _ => rfl, by simp,
        fun idx h => absurd h (List.not_mem_nil idx)⟩
  | cons hd tl ih =>
      intro st
      rw [List.nodup_cons] at hnd
      have hutl : ∀ idx1 ∈ tl, ∀ idx2 ∈ tl,
          A.col_ind idx1 = node_i → A.col_ind idx2 = node_i → idx1 = idx2 :=
        fun a ha b hb => hu a (List.mem_cons_of_mem hd ha) b (List.mem_cons_of_mem hd hb)
      by_cases hhd : A.col_ind hd = node_i
      · have hnomatch : ∀ idx ∈ tl, A.col_ind idx ≠ node_i := by
          intro idx hidx hcontra
          exact hnd.1 ((hu idx (List.mem_cons_of_mem hd hidx)
            hd (List.mem_cons_self hd tl) hcontra hhd) ▸ hidx)
        have hzero : ∀ (m : ℕ → Blk n),
            (tl.map (fun idx =>
              if A.col_ind idx = node_i then (m idx).mulVec x_i else 0)).sum = 0 := by
          intro m
          refine List.sum_eq_zero ?_
          intro v hv
          rcases List.mem_map.mp hv with ⟨idx, hidx, hval⟩
          rw [if_neg (hnomatch idx hidx)] at hval
          exact hval.symm
        obtain ⟨ih1, ih2, ih3, ih4⟩ := ih hnd.2 hutl
          (writeAt st.1 hd (if p = node_i then setDiagOnes (st.1 hd) else 0),
           writeAt st.2 p (st.2 p - (st.1 hd).mulVec x_i))
        rw [List.foldl_cons, if_pos hhd]
        refine ⟨?_, ?_, ?_, ?_⟩
        · intro q hq
          exact (ih1 q hq).trans (writeAt_other _ _ _ hq)
        · intro idx hidx
          have hne : idx ≠ hd := by
            rcases hidx with h | h
            · exact fun hc => h (hc ▸ hhd)
            · exact fun hc => h (hc ▸ List.mem_cons_self hd tl)
          have hidx2 : A.col_ind idx ≠ node_i ∨ idx ∉ tl := by
            rcases hidx with h | h
            · exact Or.inl h
            · exact Or.inr (fun hc => h (List.mem_cons_of_mem hd hc))
          exact (ih2 idx hidx2).trans (writeAt_other _ _ _ hne)
        · have e1 : writeAt st.2 p (st.2 p - (st.1 hd).mulVec x_i) p
              = st.2 p - (st.1 hd).mulVec x_i := writeAt_same _ _ _
          have e2 := hzero (writeAt st.1 hd
            (if p = node_i then setDiagOnes (st.1 hd) else 0))
          have e3 := hzero st.1
          rw [ih3]
          dsimp only
          rw [e1, e2, List.map_cons, List.sum_cons, if_pos hhd, e3]
          abel
        · intro idx hidx hcol
          have heq : idx = hd := by
            rcases List.mem_cons.mp hidx with h | h
            · exact h
            · exact absurd hcol (hnomatch idx h)
          subst heq
          exact (ih2 idx (Or.inr hnd.1)).trans (writeAt_same _ _ _)
      · obtain ⟨ih1, ih2, ih3, ih4⟩ := ih hnd.2 hutl st
        rw [List.foldl_cons, if_neg hhd]
        refine ⟨ih1, ?_, ?_, ?_⟩
        · intro idx hidx
          refine ih2 idx ?_
          rcases hidx with h | h
          · exact Or.inl h
          · exact Or.inr (fun hc => h (List.mem_cons_of_mem hd hc))
        · rw [ih3, List.map_cons, List.sum_cons, if_neg hhd, zero_add]
        · intro idx hidx hcol
          have : idx ∈ tl := by
            rcases List.mem_cons.mp hidx with h | h
            · exact absurd (h ▸ hcol) hhd
            · exact h
          exact ih4 idx this hcol

/-- Effect of the full column sweep over a list of rows with disjoint
nonzero ranges. -/
theorem enforceSweep_effect (A : SysMatrix n) (node_i : ℕ) (x_i : Fin n → ℚ)
    (R : List ℕ) (hndR : R.Nodup)
    (hdisj : ∀ p ∈ R, ∀ q ∈ R, p ≠ q → ∀ idx ∈ rowIdx A p, idx ∉ rowIdx A q)
    (hndRow : ∀ p ∈ R, (rowIdx A p).Nodup)
    (hu : ∀ p ∈ R, ∀ idx1 ∈ rowIdx A p, ∀ idx2 ∈ rowIdx A p,
      A.col_ind idx1 = node_i → A.col_ind idx2 = node_i → idx1 = idx2) :
    ∀ st : (ℕ → Blk n) × Vec n,
    (∀ q, q ∉ R →
      (R.foldl (fun st2 p => enforceRowPass A node_i x_i st2 p) st).2 q = st.2 q)
    ∧ (∀ idx, (A.col_ind idx ≠ node_i ∨ ∀ p ∈ R, idx ∉ rowIdx A p) →
        (R.foldl (fun st2 p => enforceRowPass A node_i x_i st2 p) st).1 idx = st.1 idx)
    ∧ (∀ p ∈ R,
        (R.foldl (fun st2 p2 => enforceRowPass A node_i x_i st2 p2) st).2 p =
          st.2 p - ((rowIdx A p).map (fun idx =>
            if A.col_ind idx = node_i then (st.1 idx).mulVec x_i else 0)).sum)
    ∧ (∀ p ∈ R, ∀ idx ∈ rowIdx A p, A.col_ind idx = node_i →
        (R.foldl (fun st2 p2 => enforceRowPass A node_i x_i st2 p2) st).1 idx =
          (if p = node_i then setDiagOnes (st.1 idx) else 0)) := by
  induction R with
  | nil =>
      intro st
      exact ⟨fun q _ => rfl, fun idx _ => rfl,
        fun p h => absurd h (List.not_mem_nil p),
        fun p h => absurd h (List.not_mem_nil p)⟩
  | cons r T ih =>
      intro st
      rw [List.nodup_cons] at hndR
      have hdisjT : ∀ p ∈ T, ∀ q ∈ T, p ≠ q → ∀ idx ∈ rowIdx A p, idx ∉ rowIdx A q :=
        fun p hp q hq => hdisj p (List.mem_cons_of_mem r hp) q (List.mem_cons_of_mem r hq)
      have hndRowT : ∀ p ∈ T, (rowIdx A p).Nodup :=
        fun p hp => hndRow p (List.mem_cons_of_mem r hp)
      have huT : ∀ p ∈ T, ∀ idx1 ∈ rowIdx A p, ∀ idx2 ∈ rowIdx A p,
          A.col_ind idx1 = node_i → A.col_ind idx2 = node_i → idx1 = idx2 :=
        fun p hp => hu p (List.mem_cons_of_mem r hp)
      obtain ⟨f1x, f2x, f3x, f4x⟩ := enforceFold_effect A node_i x_i r (rowIdx A r)
        (hndRow r (List.mem_cons_self r T)) (hu r (List.mem_cons_self r T)) st
      have f1 : ∀ q, q ≠ r → (enforceRowPass A node_i x_i st r).2 q = st.2 q := f1x
      have f2 : ∀ idx, (A.col_ind idx ≠ node_i ∨ idx ∉ rowIdx A r) →
          (enforceRowPass A node_i x_i st r).1 idx = st.1 idx := f2x
      have f3 : (enforceRowPass A node_i x_i st r).2 r = st.2 r -
          ((rowIdx A r).map (fun idx =>
            if A.col_ind idx = node_i then (st.1 idx).mulVec x_i else 0)).sum := f3x
      have f4 : ∀ idx ∈ rowIdx A r, A.col_ind idx = node_i →
          (enforceRowPass A node_i x_i st r).1 idx =
            (if r = node_i then setDiagOnes (st.1 idx) else 0) := f4x
      obtain ⟨o1, o2, o3, o4⟩ := ih hndR.2 hdisjT hndRowT huT
        (enforceRowPass A node_i x_i st r)
      rw [List.foldl_cons]
      refine ⟨?_, ?_, ?_, ?_⟩
      · intro q hq
        have hqr : q ≠ r := fun h => hq (h ▸ List.mem_cons_self r T)
        have hqT : q ∉ T := fun h => hq (List.mem_cons_of_mem r h)
        exact (o1 q hqT).trans (f1 q hqr)
      · intro idx hidx
        have hidxT : A.col_ind idx ≠ node_i ∨ ∀ p ∈ T, idx ∉ rowIdx A p := by
          rcases hidx with h | h
          · exact Or.inl h
          · exact Or.inr (fun p hp => h p (List.mem_cons_of_mem r hp))
        have hidxr : A.col_ind idx ≠ node_i ∨ idx ∉ rowIdx A r := by
          rcases hidx with h | h
          · exact Or.inl h
          · exact Or.inr (h r (List.mem_cons_self r T))
        exact (o2 idx hidxT).trans (f2 idx hidxr)
      · intro p hp
        rcases List.mem_cons.mp hp with heq | hT
        · subst heq
          exact (o1 p hndR.1).trans f3
        · have hpr : p ≠ r := fun h => hndR.1 (h ▸ hT)
          rw [o3 p hT, f1 p hpr]
          refine congrArg (fun z => st.2 p - z) (congrArg List.sum ?_)
          refine List.map_congr_left fun idx hidx => ?_
          by_cases hc : A.col_ind idx = node_i
          · rw [if_pos hc, if_pos hc,
              f2 idx (Or.inr (hdisj p (List.mem_cons_of_mem r hT)
                r (List.mem_cons_self r T) hpr idx hidx))]
          · rw [if_neg hc, if_neg hc]
      · intro p hp idx hidx hcol
        rcases List.mem_cons.mp hp with heq | hT
        · subst heq
          have hnotT : ∀ p2 ∈ T, idx ∉ rowIdx A p2 := by
            intro p2 hp2
            exact hdisj p (List.mem_cons_self p T) p2 (List.mem_cons_of_mem p hp2)
              (fun h => hndR.1 (h ▸ hp2)) idx hidx
          exact (o2 idx (Or.inr hnotT)).trans (f4 idx hidx hcol)
        · have hpr : p ≠ r := fun h => hndR.1 (h ▸ hT)
          rw [o4 p hT idx hidx hcol,
            f2 idx (Or.inr (hdisj p (List.mem_cons_of_mem r hT)
              r (List.mem_cons_self r T) hpr idx hidx))]

theorem setDiagOnes_zero : setDiagOnes (0 : Blk n) = 1 := by
  unfold setDiagOnes
  ext a c
  by_cases h : a = c
  · simp [h, Matrix.one_apply]
  · simp [h, Matrix.one_apply]

/-- C4: EnforceSolutionAtNode(i, v, b) zeroes the whole block-row i of
the matrix (conjunct 1, with the diagonal block then set to the identity,
conjunct 2), zeroes every block of block-column i across all other rows
(conjunct 3) while folding each removed column block's effect into the
right-hand side, b[p] -= A[p][i]*v for every row p holding a nonzero in
column i (conjunct 6, stated as a sum with at most one nonzero term),
leaves all other blocks unchanged (conjunct 4), and sets b at point i to v
(conjunct 5). -/
theorem C4_enforceSolutionAtNode_spec (A : SysMatrix n) (node_i : ℕ)
    (x_i : Fin n → ℚ) (b : Vec n)
    (hnode : node_i < A.nPoint)
    (hdisj0 : ∀ p < A.nPoint, ∀ q < A.nPoint, ∀ idx ∈ rowIdx A p,
      p = q ∨ idx ∉ rowIdx A q)
    (hu : ∀ p < A.nPoint, ∀ idx1 ∈ rowIdx A p, ∀ idx2 ∈ rowIdx A p,
      A.col_ind idx1 = node_i → A.col_ind idx2 = node_i → idx1 = idx2) :
    (∀ idx ∈ rowIdx A node_i, A.col_ind idx ≠ node_i →
      (EnforceSolutionAtNode A node_i x_i b).1 idx = 0)
    ∧ (∀ idx ∈ rowIdx A node_i, A.col_ind idx = node_i →
        (EnforceSolutionAtNode A node_i x_i b).1 idx = 1)
    ∧ (∀ p < A.nPoint, p ≠ node_i → ∀ idx ∈ rowIdx A p, A.col_ind idx = node_i →
        (EnforceSolutionAtNode A node_i x_i b).1 idx = 0)
    ∧ (∀ p < A.nPoint, p ≠ node_i → ∀ idx ∈ rowIdx A p, A.col_ind idx ≠ node_i →
        (EnforceSolutionAtNode A node_i x_i b).1 idx = A.val idx)
    ∧ ((EnforceSolutionAtNode A node_i x_i b).2 node_i = x_i)
    ∧ (∀ p < A.nPoint, p ≠ node_i →
        (EnforceSolutionAtNode A node_i x_i b).2 p =
          b p - ((rowIdx A p).map (fun idx =>
            if A.col_ind idx = node_i then (A.val idx).mulVec x_i else 0)).sum) := by
  have hdisj : ∀ p < A.nPoint, ∀ q < A.nPoint, p ≠ q →
      ∀ idx ∈ rowIdx A p, idx ∉ rowIdx A q := by
    intro p hp q hq hne idx hidx
    exact (hdisj0 p hp q hq idx hidx).resolve_left hne
  have hdisj2 : ∀ p ∈ List.range A.nPoint, ∀ q ∈ List.range A.nPoint, p ≠ q →
      ∀ idx ∈ rowIdx A p, idx ∉ rowIdx A q := by
    intro p hp q hq
    exact hdisj p (List.mem_range.mp hp) q (List.mem_range.mp hq)
  have hndRow : ∀ p ∈ List.range A.nPoint, (rowIdx A p).Nodup := by
    intro p _
    exact List.nodup_range' _ _
  have hu2 : ∀ p ∈ List.range A.nPoint, ∀ idx1 ∈ rowIdx A p, ∀ idx2 ∈ rowIdx A p,
      A.col_ind idx1 = node_i → A.col_ind idx2 = node_i → idx1 = idx2 := by
    intro p hp
    exact hu p (List.mem_range.mp hp)
  obtain ⟨o1, o2, o3, o4⟩ := enforceSweep_effect A node_i x_i
    (List.range A.nPoint) (List.nodup_range _) hdisj2 hndRow hu2
    (fun idx => if A.row_ptr node_i ≤ idx ∧ idx < A.row_ptr (node_i + 1)
        then 0 else A.val idx, b)
  have hmat1row : ∀ idx ∈ rowIdx A node_i,
      (if A.row_ptr node_i ≤ idx ∧ idx < A.row_ptr (node_i + 1)
        then (0 : Blk n) else A.val idx) = 0 := by
    intro idx hidx
    rw [mem_rowIdx] at hidx
    exact if_pos hidx
  have hmat1other : ∀ p, p ≠ node_i → p < A.nPoint → ∀ idx ∈ rowIdx A p,
      (if A.row_ptr node_i ≤ idx ∧ idx < A.row_ptr (node_i + 1)
        then (0 : Blk n) else A.val idx) = A.val idx := by
    intro p hp hplt idx hidx
    have : idx ∉ rowIdx A node_i := hdisj p hplt node_i hnode hp idx hidx
    rw [mem_rowIdx] at this
    exact if_neg this
  refine ⟨?_, ?_, ?_, ?_, ?_, ?_⟩
  · intro idx hidx hcol
    refine ((o2 idx (Or.inl hcol)).trans ?_)
    exact hmat1row idx hidx
  · intro idx hidx hcol
    refine ((o4 node_i (List.mem_range.mpr hnode) idx hidx hcol).trans ?_)
    dsimp only
    rw [if_pos rfl, hmat1row idx hidx, setDiagOnes_zero]
  · intro p hplt hp idx hidx hcol
    refine ((o4 p (List.mem_range.mpr hplt) idx hidx hcol).trans ?_)
    rw [if_neg hp]
  · intro p hplt hp idx hidx hcol
    refine ((o2 idx (Or.inl hcol)).trans ?_)
    exact hmat1other p hp hplt idx hidx
  · exact writeAt_same _ _ _
  · intro p hplt hp
    refine (writeAt_other _ _ _ hp).trans ?_
    refine ((o3 p (List.mem_range.mpr hplt)).trans ?_)
    dsimp only
    refine congrArg (fun z => b p - z) (congrArg List.sum ?_)
    refine List.map_congr_left fun idx hidx => ?_
    by_cases hc : A.col_ind idx = node_i
    · rw [if_pos hc, if_pos hc, hmat1other p hp hplt idx hidx]
    · rw [if_neg hc, if_neg hc]

theorem C4_enforceSolutionAtNode_spec_witness :
    ((0 < (wPart 0).nPoint)
      ∧ (∀ p < (wPart 0).nPoint, ∀ q < (wPart 0).nPoint,
          ∀ idx ∈ rowIdx (wPart 0) p, p = q ∨ idx ∉ rowIdx (wPart 0) q)
      ∧ (∀ p < (wPart 0).nPoint, ∀ idx1 ∈ rowIdx (wPart 0) p,
          ∀ idx2 ∈ rowIdx (wPart 0) p,
          (wPart 0).col_ind idx1 = 0 → (wPart 0).col_ind idx2 = 0 → idx1 = idx2))
    ∧ ((∀ idx ∈ rowIdx (wPart 0) 0, (wPart 0).col_ind idx ≠ 0 →
        (EnforceSolutionAtNode (wPart 0) 0 (fun _ => 5) (wY 0)).1 idx = 0)
      ∧ (∀ idx ∈ rowIdx (wPart 0) 0, (wPart 0).col_ind idx = 0 →
          (EnforceSolutionAtNode (wPart 0) 0 (fun _ => 5) (wY 0)).1 idx = 1)
      ∧ (∀ p < (wPart 0).nPoint, p ≠ 0 → ∀ idx ∈ rowIdx (wPart 0) p,
          (wPart 0).col_ind idx = 0 →
          (EnforceSolutionAtNode (wPart 0) 0 (fun _ => 5) (wY 0)).1 idx = 0)
      ∧ (∀ p < (wPart 0).nPoint, p ≠ 0 → ∀ idx ∈ rowIdx (wPart 0) p,
          (wPart 0).col_ind idx ≠ 0 →
          (EnforceSolutionAtNode (wPart 0) 0 (fun _ => 5) (wY 0)).1 idx
            = (wPart 0).val idx)
      ∧ ((EnforceSolutionAtNode (wPart 0) 0 (fun _ => 5) (wY 0)).2 0 = fun _ => 5)
      ∧ (∀ p < (wPart 0).nPoint, p ≠ 0 →
          (EnforceSolutionAtNode (wPart 0) 0 (fun _ => 5) (wY 0)).2 p =
            wY 0 p - ((rowIdx (wPart 0) p).map (fun idx =>
              if (wPart 0).col_ind idx = 0
              then ((wPart 0).val idx).mulVec (fun _ => 5) else 0)).sum)) :=
  ⟨⟨by decide, by decide, by decide⟩,
    C4_enforceSolutionAtNode_spec (wPart 0) 0 (fun _ => 5) (wY 0)
      (by decide) (by decide) (by decide)⟩

/-! ## BuildLineletPreconditioner chain growth (lines 905-965)

The geometric inputs (point adjacency, ownership, and the face-based
anisotropy weight 0.5*area*(1/vol_i + 1/vol_j) computed from the edge
normal and the point volumes) are parameters of the model. -/

structure LineletGeom where
  neighbors : ℕ → List ℕ
  domain : ℕ → Bool
  w : ℕ → ℕ → ℚ

/-- max_weight at the chain tip (lines 914-927): largest face weight over
unvisited in-domain neighbors. -/
def maxWeight (G : LineletGeom) (check : ℕ → Bool) (ip : ℕ) : ℚ :=
  (G.neighbors ip).foldl (fun mw jp =>
    if check jp && G.domain jp then max mw (G.w ip jp) else mw) 0

/-- The qualification test of the growth loop (lines 943-944): unvisited,
weight ratio above alpha = 0.9, owned by the partition, and not the point
the chain came from (index_Point is the tip position, so the chain has
length index_Point+1 and the previous point sits at position
chain.length - 2). -/
def qualifiesB (G : LineletGeom) (check : ℕ → Bool) (chain : List ℕ)
    (ip jp : ℕ) : Bool :=
  check jp && decide (G.w ip jp / maxWeight G check ip > 9 / 10) && G.domain jp
    && (chain.length == 1 || decide (jp ≠ chain.getD (chain.length - 2) 0))

/-- The qualifying neighbors of the tip, in adjacency order; counter is
its length and next_Point its last element. -/
def qualifyingList (G : LineletGeom) (check : ℕ → Bool) (chain : List ℕ)
    (ip : ℕ) : List ℕ :=
  (G.neighbors ip).filter (qualifiesB G check chain ip)

/-- The chain-growth do-while loop (lines 909-963): while exactly one
neighbor of the tip qualifies, append it and mark it visited; fuel bounds
the iteration count (each step visits a new point, so nPoint fuel
suffices). -/
def lineletGrow (G : LineletGeom) : ℕ → List ℕ × (ℕ → Bool) → List ℕ × (ℕ → Bool)
  | 0, st => st
  | fuel + 1, (chain, check) =>
      let ip := (chain.getLast?).getD 0
      let q := qualifyingList G check chain ip
      if q.length = 1 then
        let np := (q.getLast?).getD 0
        lineletGrow G fuel
          (chain ++ [np], fun p => if p = np then false else check p)
      else (chain, check)

/-- C6: at every chain tip, if the number of qualifying neighbors
(unvisited, owned, weight above alpha times the max weight) differs from
one -- in particular when more than one neighbor qualifies -- the chain
stops growing; if exactly one neighbor qualifies it is appended to the
chain, marked visited, and growth repeats. -/
theorem C6_linelet_growth_spec (G : LineletGeom) (fuel : ℕ)
    (chain : List ℕ) (check : ℕ → Bool) :
    ((qualifyingList G check chain ((chain.getLast?).getD 0)).length ≠ 1 →
      lineletGrow G (fuel + 1) (chain, check) = (chain, check))
    ∧ (∀ np, qualifyingList G check chain ((chain.getLast?).getD 0) = [np] →
        lineletGrow G (fuel + 1) (chain, check)
          = lineletGrow G fuel
              (chain ++ [np], fun p => if p = np then false else check p)
        ∧ np ∈ G.neighbors ((chain.getLast?).getD 0)
        ∧ qualifiesB G check chain ((chain.getLast?).getD 0) np = true
        ∧ (fun p => if p = np then false else check p) np = false) := by
  constructor
  · intro hne
    simp only [lineletGrow]
    rw [if_neg hne]
  · intro np hq
    refine ⟨?_, ?_, ?_, ?_⟩
    · simp only [lineletGrow, hq]
      rfl
    · have : np ∈ qualifyingList G check chain ((chain.getLast?).getD 0) := by
        rw [hq]; exact List.mem_singleton.mpr rfl
      exact List.mem_of_mem_filter this
    · have : np ∈ qualifyingList G check chain ((chain.getLast?).getD 0) := by
        rw [hq]; exact List.mem_singleton.mpr rfl
      exact List.of_mem_filter this
    · simp

theorem C6_linelet_growth_spec_witness :
    ((qualifyingList ⟨fun _ => [], fun _ => true, fun _ _ => 1⟩
        (fun _ => true) [4] (([4] : List ℕ).getLast?.getD 0)).length ≠ 1 →
      lineletGrow ⟨fun _ => [], fun _ => true, fun _ _ => 1⟩ 3
        ([4], fun _ => true) = ([4], fun _ => true))
    ∧ (∀ np, qualifyingList ⟨fun _ => [], fun _ => true, fun _ _ => 1⟩
          (fun _ => true) [4] (([4] : List ℕ).getLast?.getD 0) = [np] →
        lineletGrow ⟨fun _ => [], fun _ => true, fun _ _ => 1⟩ 3
            ([4], fun _ => true)
          = lineletGrow ⟨fun _ => [], fun _ => true, fun _ _ => 1⟩ 2
              ([4] ++ [np], fun p => if p = np then false else true)
        ∧ np ∈ ([] : List ℕ)
        ∧ qualifiesB ⟨fun _ => [], fun _ => true, fun _ _ => 1⟩
            (fun _ => true) [4] (([4] : List ℕ).getLast?.getD 0) np = true
        ∧ (fun p => if p = np then false else true) np = false) :=
  C6_linelet_growth_spec ⟨fun _ => [], fun _ => true, fun _ _ => 1⟩ 2 [4]
    (fun _ => true)

/-! ## ComputeLineletPreconditioner (lines 1016-1118)

GetBlock (from CSysMatrix.inl, modelled from the spec) searches the row
for the column's nonzero slot.  Gauss_Elimination (lines 470-498) solves
one dense block system in place.  The halo exchange
(InitiateComms+CompleteComms on prod) is a parameter of the model and each
application is counted, which exposes how many exchanges a call performs
and where. -/

/-- GetBlock, modelled from the spec: the dense block of entry (i, j) of
the primary pattern, zero when absent. -/
def GetBlock (A : SysMatrix n) (i j : ℕ) : Blk n :=
  match (rowIdx A i).find? (fun idx => A.col_ind idx == j) with
  | some idx => A.val idx
  | none => 0

/-- Forward elimination of Gauss_Elimination (lines 482-489) on a flat
block and right-hand side. -/
def gaussSolveFwd (nv : ℕ) (s : FlatMat × (ℕ → ℚ)) : FlatMat × (ℕ → ℚ) :=
  (List.range' 1 (nv - 1)).foldl (fun s2 i =>
    (List.range i).foldl (fun s3 j =>
      (fun a k => if a = i ∧ j ≤ k ∧ k < nv
          then s3.1 a k - s3.1 i j / s3.1 j j * s3.1 j k else s3.1 a k,
       fun a => if a = i then s3.2 a - s3.1 i j / s3.1 j j * s3.2 j else s3.2 a)) s2) s

/-- Backwards substitution of Gauss_Elimination (lines 492-496). -/
def gaussSolveBwd (nv : ℕ) (s : FlatMat × (ℕ → ℚ)) : FlatMat × (ℕ → ℚ) :=
  ((List.range nv).reverse).foldl (fun s2 i =>
    (s2.1, fun a =>
      if a = i then
        ((List.range' (i + 1) (nv - 1 - i)).foldl
          (fun v j => v - s2.1 i j * s2.2 j) (s2.2 i)) / s2.1 i i
      else s2.2 a)) s

/-- Gauss_Elimination at block level: solve blk * x = rhs in place and
return the solution vector. -/
def gaussSolveVec (blk : Blk n) (rhs : Fin n → ℚ) : Fin n → ℚ :=
  fun i =>
    (gaussSolveBwd n (gaussSolveFwd n
      (fun a c => if h : a < n ∧ c < n then blk ⟨a, h.1⟩ ⟨c, h.2⟩ else 0,
       fun a => if h : a < n then rhs ⟨a, h⟩ else 0))).2 i.val

/-- Block Thomas elimination of one linelet chain (lines 1041-1109):
initialize the chain vector from vec, forward pass inverting each
previous modified diagonal in place (MatrixInverse(inv_dm1, inv_dm1)) and
updating diagonal and right-hand side, backward substitution, then copy
the chain solution into prod. -/
def thomasChain (A : SysMatrix n) (vec : Vec n) (pr : Vec n)
    (chain : List ℕ) : Vec n :=
  let nE := chain.length
  let bv0 : ℕ → Fin n → ℚ := fun e => vec (chain.getD e 0)
  let invD0 : ℕ → Blk n :=
    writeAt (fun _ => 0) 0 (GetBlock A (chain.getD 0 0) (chain.getD 0 0))
  let st := (List.range' 1 (nE - 1)).foldl
    (fun (s : (ℕ → Blk n) × (ℕ → Fin n → ℚ) × (ℕ → Blk n)) e =>
      let im1 := chain.getD (e - 1) 0
      let ip := chain.getD e 0
      let d := GetBlock A ip ip
      let l := GetBlock A ip im1
      let u := GetBlock A im1 ip
      let invD1 := writeAt s.1 (e - 1) (invBlk (s.1 (e - 1)))
      let weight := l * invD1 (e - 1)
      (writeAt invD1 e (d - weight * u),
       writeAt s.2.1 e (s.2.1 e - weight.mulVec (s.2.1 (e - 1))),
       writeAt s.2.2 (e - 1) u)) (invD0, bv0, fun _ => 0)
  let bv1 := writeAt st.2.1 (nE - 1)
    (gaussSolveVec (st.1 (nE - 1)) (st.2.1 (nE - 1)))
  let bv2 := ((List.range' 1 (nE - 1)).reverse).foldl (fun bv e =>
    writeAt bv (e - 1)
      ((st.1 (e - 1)).mulVec (bv (e - 1) - (st.2.2 (e - 1)).mulVec (bv e)))) bv1
  (List.range nE).foldl (fun pr2 e => writeAt pr2 (chain.getD e 0) (bv2 e)) pr

/-- Whether a point belongs to some linelet chain (LineletBool). -/
def lineletBool (chains : List (List ℕ)) (p : ℕ) : Bool :=
  chains.any (fun c => c.contains p)

/-- The Jacobi pass over owned points not in any chain (lines 1028-1030). -/
def lineletJacobiPass (A : SysMatrix n) (chains : List (List ℕ))
    (invM : ℕ → Blk n) (vec prod0 : Vec n) : Vec n :=
  (List.range A.nPointDomain).foldl (fun pr p =>
    if lineletBool chains p then pr
    else writeAt pr p ((invM p).mulVec (vec p))) prod0

/-- CSysMatrix::ComputeLineletPreconditioner with the halo exchange as an
instrumented parameter: Jacobi on non-chain owned points, halo exchange,
Thomas solve of every chain, halo exchange.  The second component counts
the exchange invocations. -/
def ComputeLineletPreconditioner (A : SysMatrix n) (chains : List (List ℕ))
    (invM : ℕ → Blk n) (exchange : Vec n → Vec n) (vec prod0 : Vec n) :
    Vec n × ℕ :=
  let doExchange : Vec n × ℕ → Vec n × ℕ := fun s => (exchange s.1, s.2 + 1)
  let st1 := (lineletJacobiPass A chains invM vec prod0, 0)
  let st2 := doExchange st1
  let st3 := (chains.foldl (fun pr c => thomasChain A vec pr c) st2.1, st2.2)
  doExchange st3

/-- A fold of unconditional writes leaves every slot outside its key set
untouched. -/
theorem foldl_writeAt_frame {α V : Type} (L : List α) (key : α → ℕ)
    (val : α → V) (q : ℕ) (h : ∀ e ∈ L, key e ≠ q) :
    ∀ pr : ℕ → V, (L.foldl (fun pr2 e => writeAt pr2 (key e) (val e)) pr) q = pr q := by
  induction L with
  | nil => intro pr; rfl
  | cons hd tl ih =>
      intro pr
      rw [List.foldl_cons]
      rw [ih (fun e he => h e (List.mem_cons_of_mem hd he))]
      exact writeAt_other _ _ _ (fun hc => h hd (List.mem_cons_self hd tl) (hc.symm ▸ rfl))

/-- The Thomas solve of one chain writes only the chain's points. -/
theorem thomasChain_frame (A : SysMatrix n) (vec pr : Vec n) (chain : List ℕ)
    (q : ℕ) (hq : q ∉ chain) : thomasChain A vec pr chain q = pr q := by
  refine foldl_writeAt_frame (List.range chain.length)
    (fun e => chain.getD e 0) _ q ?_ pr
  intro e he hc
  refine hq ?_
  rw [← hc]
  show chain.getD e 0 ∈ chain
  have helt := List.mem_range.mp he
  rw [List.getD_eq_getElem chain 0 helt]
  exact List.getElem_mem helt

/-- A fold of conditional per-point writes over distinct points leaves
points outside the list untouched. -/
theorem foldl_condWrite_frame {V : Type} (L : List ℕ) (cond : ℕ → Bool)
    (val : ℕ → V) (p : ℕ) (hp : p ∉ L) :
    ∀ pr : ℕ → V,
      (L.foldl (fun pr2 q => if cond q then pr2 else writeAt pr2 q (val q)) pr) p = pr p := by
  induction L with
  | nil => intro pr; rfl
  | cons hd tl ih =>
      intro pr
      rw [List.foldl_cons, ih (fun hc => hp (List.mem_cons_of_mem hd hc))]
      by_cases hc : cond hd
      · rw [if_pos hc]
      · rw [if_neg hc]
        exact writeAt_other _ _ _ (fun hc2 => hp (hc2 ▸ List.mem_cons_self hd tl))

/-- Value written by the conditional Jacobi pass at a processed point. -/
theorem foldl_condWrite_apply {V : Type} (L : List ℕ) (hnd : L.Nodup)
    (cond : ℕ → Bool) (val : ℕ → V) (p : ℕ) (hp : p ∈ L) (hcond : cond p = false) :
    ∀ pr : ℕ → V,
      (L.foldl (fun pr2 q => if cond q then pr2 else writeAt pr2 q (val q)) pr) p = val p := by
  induction L with
  | nil => cases hp
  | cons hd tl ih =>
      intro pr
      rw [List.nodup_cons] at hnd
      rw [List.foldl_cons]
      rcases List.mem_cons.mp hp with heq | htl
      · rw [← heq] at hnd ⊢
        rw [foldl_condWrite_frame tl cond val p hnd.1, hcond,
          if_neg Bool.false_ne_true]
        exact writeAt_same _ _ _
      · exact ih hnd.2 htl _

theorem lineletJacobiPass_apply (A : SysMatrix n) (chains : List (List ℕ))
    (invM : ℕ → Blk n) (vec prod0 : Vec n) (p : ℕ)
    (hp : p < A.nPointDomain) (hnc : lineletBool chains p = false) :
    lineletJacobiPass A chains invM vec prod0 p = (invM p).mulVec (vec p) :=
  foldl_condWrite_apply (List.range A.nPointDomain) (List.nodup_range _)
    (lineletBool chains) (fun q => (invM q).mulVec (vec q)) p
    (List.mem_range.mpr hp) hnc prod0

/-- Points in no chain are untouched by the per-chain Thomas solves. -/
theorem chains_fold_frame (A : SysMatrix n) (vec : Vec n)
    (chains : List (List ℕ)) (p : ℕ) (hp : ∀ c ∈ chains, p ∉ c) :
    ∀ pr : Vec n,
      (chains.foldl (fun pr2 c => thomasChain A vec pr2 c) pr) p = pr p := by
  induction chains with
  | nil => intro pr; rfl
  | cons hd tl ih =>
      intro pr
      rw [List.foldl_cons, ih (fun c hc => hp c (List.mem_cons_of_mem hd hc))]
      exact thomasChain_frame A vec pr hd p (hp hd (List.mem_cons_self hd tl))

/-- C7 counterexample: ComputeLineletPreconditioner performs the halo
exchange of the result vector twice, not exactly once: the invocation
count of the concrete call is 2. -/
theorem C7_linelet_single_exchange_counterexample :
    (ComputeLineletPreconditioner (wPart 0) [] wBlkOne id (wVec 0) (wVec 0)).2 = 2
    ∧ (ComputeLineletPreconditioner (wPart 0) [] wBlkOne id (wVec 0) (wVec 0)).2 ≠ 1 :=
  ⟨rfl, by decide⟩

/-- C7 amended: ComputeLineletPreconditioner performs the halo exchange of
the result vector twice: once after the non-chain (Jacobi) points are
resolved (lines 1034-1035) and once at the end (lines 1115-1116); the
final exchange does happen after all chain points (Thomas solves) and all
non-chain points (Jacobi applies) have been resolved -- assuming the
exchange only touches ghost entries, the vector it receives holds the
Jacobi value at every owned non-chain point and the chain solves wrote
only chain points. -/
theorem C7_linelet_two_exchanges (A : SysMatrix n) (chains : List (List ℕ))
    (invM : ℕ → Blk n) (exchange : Vec n → Vec n) (vec prod0 : Vec n)
    (hex : ∀ x : Vec n, ∀ p < A.nPointDomain, exchange x p = x p) :
    ((ComputeLineletPreconditioner A chains invM exchange vec prod0).2 = 2)
    ∧ ((ComputeLineletPreconditioner A chains invM exchange vec prod0).1
        = exchange (chains.foldl (fun pr c => thomasChain A vec pr c)
            (exchange (lineletJacobiPass A chains invM vec prod0))))
    ∧ (∀ p < A.nPointDomain, lineletBool chains p = false →
        (chains.foldl (fun pr c => thomasChain A vec pr c)
          (exchange (lineletJacobiPass A chains invM vec prod0))) p
          = (invM p).mulVec (vec p)) := by
  refine ⟨rfl, rfl, ?_⟩
  intro p hp hnc
  have hnotchain : ∀ c ∈ chains, p ∉ c := by
    intro c hc hmem
    have : lineletBool chains p = true := by
      unfold lineletBool
      rw [List.any_eq_true]
      exact ⟨c, hc, by simpa using hmem⟩
    rw [this] at hnc
    cases hnc
  rw [chains_fold_frame A vec chains p hnotchain, hex _ p hp,
    lineletJacobiPass_apply A chains invM vec prod0 p hp hnc]

theorem C7_linelet_two_exchanges_witness :
    (∀ x : Vec 1, ∀ p < (wPart 0).nPointDomain, id x p = x p)
    ∧ (((ComputeLineletPreconditioner (wPart 0) [[0]] wBlkOne id (wVec 0) (wVec 0)).2 = 2)
      ∧ ((ComputeLineletPreconditioner (wPart 0) [[0]] wBlkOne id (wVec 0) (wVec 0)).1
          = id (([[0]] : List (List ℕ)).foldl
              (fun pr c => thomasChain (wPart 0) (wVec 0) pr c)
              (id (lineletJacobiPass (wPart 0) [[0]] wBlkOne (wVec 0) (wVec 0)))))
      ∧ (∀ p < (wPart 0).nPointDomain, lineletBool [[0]] p = false →
          (([[0]] : List (List ℕ)).foldl
            (fun pr c => thomasChain (wPart 0) (wVec 0) pr c)
            (id (lineletJacobiPass (wPart 0) [[0]] wBlkOne (wVec 0) (wVec 0)))) p
            = (wBlkOne p).mulVec (wVec 0 p))) :=
  ⟨fun _ _ _ => rfl,
    C7_linelet_two_exchanges (wPart 0) [[0]] wBlkOne id (wVec 0) (wVec 0)
      (fun _ _ _ => rfl)⟩

/-! ## Dimension checks of the matrix-vector products (lines 593-601 and
625-633)

The consistency checks sit inside an ifndef-NDEBUG block: they are
compiled in only when assertions are enabled.  checksEnabled models that
build flag; SU2_MPI::Error is modelled as an error result.  The vectors
carry their own nVar/nBlk (CSysVector::GetNVar / GetNBlk), passed here as
plain numbers. -/

def MatrixVectorProductChecked (A : SysMatrix n) (checksEnabled : Bool)
    (vecNVar vecNBlk prodNVar prodNBlk : ℕ) (vec : Vec n) :
    Except String (Vec n) :=
  if checksEnabled then
    if n ≠ vecNVar ∨ n ≠ prodNVar then
      Except.error "nVar values incompatible."
    else if A.nPoint ≠ vecNBlk ∨ A.nPoint ≠ prodNBlk then
      Except.error "nPoint and nBlk values incompatible."
    else Except.ok (mvpLocal A vec)
  else Except.ok (mvpLocal A vec)

def MatrixVectorProductTransposedChecked (A : SysMatrix n) (checksEnabled : Bool)
    (vecNVar vecNBlk prodNVar prodNBlk : ℕ) (vec : Vec n) :
    Except String (Vec n) :=
  if checksEnabled then
    if n ≠ vecNVar ∨ n ≠ prodNVar then
      Except.error "nVar values incompatible."
    else if A.nPoint ≠ vecNBlk ∨ A.nPoint ≠ prodNBlk then
      Except.error "nPoint and nBlk values incompatible."
    else Except.ok (mvpTLocal A vec)
  else Except.ok (mvpTLocal A vec)

/-- C8 counterexample: the dimension checks are compiled out in NDEBUG
builds, so a call whose vector block size (5) does not match the matrix
nVar (1) still computes and returns a product instead of failing. -/
theorem C8_mismatch_fatal_counterexample :
    ((1 : ℕ) ≠ 5 ∨ (1 : ℕ) ≠ 1)
    ∧ MatrixVectorProductChecked (wPart 0) false 5 2 1 2 (wVec 0)
        = Except.ok (mvpLocal (wPart 0) (wVec 0)) :=
  ⟨by decide, rfl⟩

/-- C8 amended: when assertions are enabled (builds without NDEBUG), a
call to MatrixVectorProduct or MatrixVectorProductTransposed whose block
count or block size does not match the matrix's nPoint/nVar fails with an
immediately reported fatal error and does not compute a product; with
NDEBUG the checks are compiled out. -/
theorem C8_mismatch_fatal_when_checked (A : SysMatrix n)
    (vecNVar vecNBlk prodNVar prodNBlk : ℕ) (vec : Vec n)
    (hmis : n ≠ vecNVar ∨ n ≠ prodNVar
      ∨ A.nPoint ≠ vecNBlk ∨ A.nPoint ≠ prodNBlk) :
    (∃ msg, MatrixVectorProductChecked A true vecNVar vecNBlk prodNVar prodNBlk vec
        = Except.error msg)
    ∧ (∃ msg, MatrixVectorProductTransposedChecked A true
        vecNVar vecNBlk prodNVar prodNBlk vec = Except.error msg) := by
  by_cases h1 : n ≠ vecNVar ∨ n ≠ prodNVar
  · constructor
    · refine ⟨"nVar values incompatible.", ?_⟩
      unfold MatrixVectorProductChecked
      rw [if_pos rfl, if_pos h1]
    · refine ⟨"nVar values incompatible.", ?_⟩
      unfold MatrixVectorProductTransposedChecked
      rw [if_pos rfl, if_pos h1]
  · have h2 : A.nPoint ≠ vecNBlk ∨ A.nPoint ≠ prodNBlk := by
      rcases hmis with h | h | h | h
      · exact absurd (Or.inl h) h1
      · exact absurd (Or.inr h) h1
      · exact Or.inl h
      · exact Or.inr h
    constructor
    · refine ⟨"nPoint and nBlk values incompatible.", ?_⟩
      unfold MatrixVectorProductChecked
      rw [if_pos rfl, if_neg h1, if_pos h2]
    · refine ⟨"nPoint and nBlk values incompatible.", ?_⟩
      unfold MatrixVectorProductTransposedChecked
      rw [if_pos rfl, if_neg h1, if_pos h2]

theorem C8_mismatch_fatal_when_checked_witness :
    ((1 : ℕ) ≠ 5 ∨ (1 : ℕ) ≠ 1 ∨ (wPart 0).nPoint ≠ 2 ∨ (wPart 0).nPoint ≠ 2)
    ∧ ((∃ msg, MatrixVectorProductChecked (wPart 0) true 5 2 1 2 (wVec 0)
          = Except.error msg)
      ∧ (∃ msg, MatrixVectorProductTransposedChecked (wPart 0) true 5 2 1 2 (wVec 0)
          = Except.error msg)) :=
  ⟨by decide, C8_mismatch_fatal_when_checked (wPart 0) 5 2 1 2 (wVec 0) (by decide)⟩

end SU2
